import Mathlib

/-!
Verification of the Dallas traffic-network analysis pipeline
(`build_network.py`, `centrality_analysis.py`, `community_detection.py`)
against its natural-language specification.

The Python code is shallowly embedded: pandas rows become typed records,
`networkx.DiGraph` becomes an insertion-ordered association structure
(Python dicts preserve insertion order; re-adding a key updates its value
in place), Python floats become an inductive `Cell` covering the cases the
code distinguishes (missing / NaN / finite rational / the two infinities),
and fallible functions return `Except`.  Floating-point power iteration
(`nx.eigenvector_centrality`) and the Louvain library call
(`community.best_partition`) are inherently numeric/external; they are
modelled as explicit function parameters ("oracles") whose documented
output contracts appear as hypotheses where a claim needs them.  All
policy logic around them (component selection, attempt ordering, fallback,
projection, error propagation) is translated directly from the source.
-/

/-! ### Association-list primitives (Python dict semantics) -/

/-- Python-dict insert: if the key is present, update its value in place
(keeping its position); otherwise append at the end. -/
def upsert {κ α : Type} [DecidableEq κ] (l : List (κ × α)) (k : κ) (a : α) :
    List (κ × α) :=
  match l with
  | [] => [(k, a)]
  | (k0, a0) :: t => if k0 = k then (k, a) :: t else (k0, a0) :: upsert t k a

/-- Python-dict lookup (first matching key). -/
def getVal {κ α : Type} [DecidableEq κ] (l : List (κ × α)) (k : κ) : Option α :=
  match l with
  | [] => none
  | (k0, a0) :: t => if k0 = k then some a0 else getVal t k

/-- Number of elements of the list not already in `seen`, counting each new
value once (at its first occurrence). -/
def newCount {κ : Type} [DecidableEq κ] (seen : List κ) : List κ → Nat
  | [] => 0
  | a :: t => if a ∈ seen then newCount seen t else 1 + newCount (a :: seen) t

/-- Number of repeated occurrences: elements already in `seen` or appearing
earlier in the list. -/
def dupCount {κ : Type} [DecidableEq κ] (seen : List κ) : List κ → Nat
  | [] => 0
  | a :: t => if a ∈ seen then 1 + dupCount seen t else dupCount (a :: seen) t

/-- Number of distinct values occurring in a list. -/
def distinctCount {κ : Type} [DecidableEq κ] (l : List κ) : Nat :=
  newCount [] l

/-! ### Data model: cells, rows, tables (§3, §6 of the spec) -/

/-- A pandas cell as the code's weight filter distinguishes it:
absent (`row.get` returned `None`), NaN, a finite float (idealized as a
rational), or an infinity. -/
inductive Cell : Type
  | missing : Cell
  | nan : Cell
  | num : ℚ → Cell
  | posInf : Cell
  | negInf : Cell
deriving DecidableEq, Repr

/-- A row of the processed node table (`Node_ID`, `Lon`, `Lat`). -/
structure NodeRow : Type where
  node_id : Int
  lon : ℚ
  lat : ℚ
deriving DecidableEq, Repr

/-- A row of the processed link table.  The fixed columns are typed; the
optional `travel_time_<Period>` columns live in `extra`, keyed by column
name. -/
structure LinkRow : Type where
  link_id : Int
  from_node : Int
  to_node : Int
  length : ℚ
  freeflow_time : ℚ
  congested_time : ℚ
  extra : List (String × Cell)
deriving DecidableEq, Repr

/-- The link table: its column-name list (consulted by the period check in
`build_graph`) and its rows. -/
structure LinksDf : Type where
  columns : List String
  rows : List LinkRow
deriving DecidableEq, Repr

/-- `row.get(col, None)` for the columns `build_graph` uses as weight
sources. -/
def getCell (r : LinkRow) (col : String) : Cell :=
  if col = "freeflow_time" then Cell.num r.freeflow_time
  else if col = "congested_time" then Cell.num r.congested_time
  else
    match getVal r.extra col with
    | some c => c
    | none => Cell.missing

/-! ### The graph (networkx `DiGraph`) -/

/-- Edge attributes stored by `build_graph` (`link_id`, `length`,
`freeflow_time`, `congested_time`, `weight`).  The weight is kept as the
accepted cell (a positive rational or, as the code permits, `+inf`). -/
structure EdgeData : Type where
  link_id : Int
  length : ℚ
  freeflow_time : ℚ
  congested_time : ℚ
  weight : Cell
deriving DecidableEq, Repr

/-- A directed graph: insertion-ordered node dict (id ↦ optional lon/lat
attributes — `none` for a node auto-added by `add_edge`) and edge dict
keyed by the ordered endpoint pair. -/
structure DiGraph : Type where
  nodes : List (Int × Option (ℚ × ℚ))
  edges : List ((Int × Int) × EdgeData)
deriving DecidableEq, Repr

def emptyDiGraph : DiGraph := ⟨[], []⟩

def nodeIds (G : DiGraph) : List Int := G.nodes.map Prod.fst

def edgeKeys (G : DiGraph) : List (Int × Int) := G.edges.map Prod.fst

/-- `G.add_node(id, lon=…, lat=…)`: insert or update in place. -/
def addNode (G : DiGraph) (n : Int) (lon lat : ℚ) : DiGraph :=
  { G with nodes := upsert G.nodes n (some (lon, lat)) }

/-- networkx auto-adds a missing endpoint (with empty attributes) when an
edge is added. -/
def ensureNode (G : DiGraph) (n : Int) : DiGraph :=
  if n ∈ nodeIds G then G else { G with nodes := G.nodes ++ [(n, none)] }

/-- `G.add_edge(u, v, **attrs)`: endpoints auto-added if absent, edge data
overwritten if the ordered pair already has an edge. -/
def addEdge (G : DiGraph) (u v : Int) (d : EdgeData) : DiGraph :=
  let G1 := ensureNode (ensureNode G u) v
  { G1 with edges := upsert G1.edges (u, v) d }

/-! ### `build_graph` (build_network.py) -/

/-- Errors `build_graph` can raise before construction.  Both constructors
are the spec's `ConfigurationError` (§7): the code raises `KeyError` for a
missing period column and `ValueError` for an unrecognized static
weight_type. -/
inductive BuildError : Type
  | missingColumn : String → BuildError
  | badWeightType : String → BuildError
deriving DecidableEq, Repr

/-- Weight-column resolution, lines 50–64 of build_network.py: a period
selects `travel_time_<period>` (failing if that column is absent);
otherwise `weight_type` must be `freeflow` or `congested`. -/
def resolveWeightCol (weight_type : String) (period : Option String)
    (columns : List String) : Except BuildError String :=
  match period with
  | some p =>
    let wc := "travel_time_" ++ p
    if wc ∈ columns then Except.ok wc else Except.error (BuildError.missingColumn wc)
  | none =>
    if weight_type = "freeflow" then Except.ok "freeflow_time"
    else if weight_type = "congested" then Except.ok "congested_time"
    else Except.error (BuildError.badWeightType weight_type)

/-- The code's skip test (line 91): `weight is None or pd.isna(weight) or
weight <= 0`.  Note `+inf` passes this test. -/
def weightBad : Cell → Bool
  | Cell.missing => true
  | Cell.nan => true
  | Cell.num q => decide (q ≤ 0)
  | Cell.posInf => false
  | Cell.negInf => true

/-- Both endpoints of a link row are present in the node-id list. -/
def endpointsOk (N : List Int) (r : LinkRow) : Bool :=
  decide (r.from_node ∈ N) && decide (r.to_node ∈ N)

/-- One iteration of the edge loop (lines 81–104): endpoint check first
(silent skip), then the weight filter (counted skip), then `add_edge` with
the full attribute set. -/
def processRow (wcol : String) (acc : DiGraph × Nat) (r : LinkRow) :
    DiGraph × Nat :=
  if endpointsOk (nodeIds acc.1) r then
    let w := getCell r wcol
    if weightBad w then (acc.1, acc.2 + 1)
    else
      (addEdge acc.1 r.from_node r.to_node
        ⟨r.link_id, r.length, r.freeflow_time, r.congested_time, w⟩, acc.2)
  else acc

/-- The node loop (lines 70–76). -/
def buildNodes (nodes_df : List NodeRow) : DiGraph :=
  nodes_df.foldl (fun G r => addNode G r.node_id r.lon r.lat) emptyDiGraph

/-- `build_graph(nodes_df, links_df, weight_type, period)`.  Returns the
graph together with the `missing_weights` skip counter (printed by the
code as its diagnostic summary). -/
def build_graph (nodes_df : List NodeRow) (links_df : LinksDf)
    (weight_type : String) (period : Option String) :
    Except BuildError (DiGraph × Nat) :=
  match resolveWeightCol weight_type period links_df.columns with
  | Except.error e => Except.error e
  | Except.ok wcol =>
    let G0 := buildNodes nodes_df
    Except.ok (links_df.rows.foldl (processRow wcol) (G0, 0))

/-- The spec's edge-acceptance predicate, for comparison with the code.
Modelled from the spec: "An edge is constructed only if its weight is a
finite, strictly positive number" (§3). -/
def specWeightOk : Cell → Bool
  | Cell.num q => decide (0 < q)
  | _ => false

/-! ### Connectivity machinery (networkx components) -/

/-- Directed successors of a node (edge-dict iteration order). -/
def succs (G : DiGraph) (n : Int) : List Int :=
  (edgeKeys G).filterMap (fun k => if k.1 = n then some k.2 else none)

/-- Directed predecessors of a node. -/
def preds (G : DiGraph) (n : Int) : List Int :=
  (edgeKeys G).filterMap (fun k => if k.2 = n then some k.1 else none)

/-- Neighbours ignoring direction. -/
def undNbrs (G : DiGraph) (n : Int) : List Int := succs G n ++ preds G n

/-- One closure round: add every `step`-neighbour of `acc` not yet in it. -/
def closureStep (step : Int → List Int) (acc : List Int) : List Int :=
  acc.foldl (fun cur a => (step a).foldl
    (fun cur2 b => if b ∈ cur2 then cur2 else cur2 ++ [b]) cur) acc

/-- Fuelled reachability closure. -/
def reachClosure (step : Int → List Int) : Nat → List Int → List Int
  | 0, acc => acc
  | fuel + 1, acc => reachClosure step fuel (closureStep step acc)

/-- Nodes reachable from `v` along directed edges (including `v`). -/
def reachFwd (G : DiGraph) (v : Int) : List Int :=
  reachClosure (succs G) G.nodes.length [v]

/-- Nodes from which `v` is reachable (including `v`). -/
def reachBwd (G : DiGraph) (v : Int) : List Int :=
  reachClosure (preds G) G.nodes.length [v]

/-- Nodes connected to `v` ignoring direction (including `v`). -/
def reachUnd (G : DiGraph) (v : Int) : List Int :=
  reachClosure (undNbrs G) G.nodes.length [v]

/-- `nx.is_strongly_connected(G)` (callers guarantee a nonempty graph). -/
def isStronglyConnected (G : DiGraph) : Bool :=
  (nodeIds G).all (fun u => (nodeIds G).all (fun v => decide (v ∈ reachFwd G u)))

/-- The strongly connected component of `v`, in node-insertion order. -/
def sccOf (G : DiGraph) (v : Int) : List Int :=
  (nodeIds G).filter (fun u => decide (u ∈ reachFwd G v) && decide (u ∈ reachBwd G v))

/-- The weakly connected component of `v`, in node-insertion order. -/
def wccOf (G : DiGraph) (v : Int) : List Int :=
  (nodeIds G).filter (fun u => decide (u ∈ reachUnd G v))

/-- Enumerate components: scan nodes in order, emitting the component of
each first-unseen node (the discovery order networkx uses). -/
def componentsAux (comp : Int → List Int) : List Int → List Int → List (List Int)
  | [], _ => []
  | v :: rest, seen =>
    if v ∈ seen then componentsAux comp rest seen
    else comp v :: componentsAux comp rest (seen ++ comp v)

/-- `nx.strongly_connected_components(G)` as a list. -/
def sccs (G : DiGraph) : List (List Int) :=
  componentsAux (sccOf G) (nodeIds G) []

/-- `nx.weakly_connected_components(G)` as a list. -/
def wccs (G : DiGraph) : List (List Int) :=
  componentsAux (wccOf G) (nodeIds G) []

/-- Python `max(components, key=len)`: first component of maximal length
(replacement only on strictly greater). -/
def maxByLen : List (List Int) → List Int
  | [] => []
  | c :: t => t.foldl (fun best x => if best.length < x.length then x else best) c

def largestSCC (G : DiGraph) : List Int := maxByLen (sccs G)

def largestWCC (G : DiGraph) : List Int := maxByLen (wccs G)

/-- `G.subgraph(s).copy()`: induced subgraph on the node set `s`. -/
def inducedSubgraph (G : DiGraph) (s : List Int) : DiGraph :=
  ⟨G.nodes.filter (fun p => decide (p.1 ∈ s)),
   G.edges.filter (fun e => decide (e.1.1 ∈ s) && decide (e.1.2 ∈ s))⟩

/-! ### Undirected projection (`G.to_undirected()`) -/

/-- An undirected graph: same node dict, edges keyed by the normalized
(sorted) endpoint pair. -/
structure UGraph : Type where
  nodes : List (Int × Option (ℚ × ℚ))
  edges : List ((Int × Int) × EdgeData)
deriving DecidableEq, Repr

def uNodeIds (U : UGraph) : List Int := U.nodes.map Prod.fst

/-- `DiGraph.to_undirected()`: direction dropped; when both `(u,v)` and
`(v,u)` exist, the later-iterated edge's data wins (the merge ambiguity
§9 of the spec flags; no claim depends on which side wins). -/
def toUndirected (G : DiGraph) : UGraph :=
  ⟨G.nodes,
   G.edges.foldl
     (fun es e =>
        upsert es (if e.1.1 ≤ e.1.2 then (e.1.1, e.1.2) else (e.1.2, e.1.1)) e.2)
     []⟩

/-! ### Degree centrality (`nx.degree_centrality`) -/

/-- Total (in+out) degree of `n` in the directed graph. -/
def totalDegree (G : DiGraph) (n : Int) : Nat :=
  ((edgeKeys G).filter (fun k => decide (k.1 = n))).length
    + ((edgeKeys G).filter (fun k => decide (k.2 = n))).length

/-- `nx.degree_centrality(G)`: for a graph with at most one node every
node scores 1; otherwise each node's total degree divided by `n − 1`. -/
def degree_centrality (G : DiGraph) : List (Int × ℚ) :=
  if G.nodes.length ≤ 1 then (nodeIds G).map (fun n => (n, 1))
  else
    (nodeIds G).map
      (fun n => (n, (totalDegree G n : ℚ) / ((G.nodes.length : ℚ) - 1)))

/-! ### Betweenness centrality (`nx.betweenness_centrality`, weighted,
normalized).  Translated from the quantity NetworkX's Brandes/Dijkstra
algorithm computes for positive weights: for each pair `s ≠ t`, the
fraction of minimum-weight `s→t` paths passing through `v`, summed and
rescaled by `1/((n−1)(n−2))` for directed graphs with `n > 2`. -/

/-- Path length contribution of one edge: finite weights idealized as
rationals, an infinite weight as `none` (= +∞). -/
def cellLen : Cell → Option ℚ
  | Cell.num q => some q
  | _ => none

def addLen : Option ℚ → Option ℚ → Option ℚ
  | some a, some b => some (a + b)
  | _, _ => none

/-- Order on path lengths with `none` as +∞. -/
def leLen : Option ℚ → Option ℚ → Bool
  | some a, some b => decide (a ≤ b)
  | some _, none => true
  | none, some _ => false
  | none, none => true

def edgeLen (G : DiGraph) (u v : Int) : Option ℚ :=
  match getVal G.edges (u, v) with
  | some d => cellLen d.weight
  | none => none

/-- Weight of a path given as a node list. -/
def pathLen (G : DiGraph) : List Int → Option ℚ
  | a :: b :: rest => addLen (edgeLen G a b) (pathLen G (b :: rest))
  | _ => some 0

/-- All simple paths from `cur` to `t` avoiding `vis` (fuelled by the node
count; positive-weight shortest paths are simple). -/
def simplePathsAux (G : DiGraph) : Nat → Int → Int → List Int → List (List Int)
  | 0, cur, t, _ => if cur = t then [[cur]] else []
  | fuel + 1, cur, t, vis =>
    if cur = t then [[cur]]
    else
      (succs G cur).foldr
        (fun nb acc =>
          if nb ∈ vis then acc
          else (simplePathsAux G fuel nb t (nb :: vis)).map (cur :: ·) ++ acc)
        []

def simplePaths (G : DiGraph) (s t : Int) : List (List Int) :=
  simplePathsAux G G.nodes.length s t [s]

def minLen (G : DiGraph) (ps : List (List Int)) : Option ℚ :=
  match ps with
  | [] => none
  | p :: t => t.foldl (fun m q => if leLen (pathLen G q) m then pathLen G q else m)
      (pathLen G p)

/-- Fraction of minimum-weight `s→t` paths through `v` (0 when no path). -/
def pairDependency (G : DiGraph) (s t v : Int) : ℚ :=
  let ps := simplePaths G s t
  let d := minLen G ps
  let short := ps.filter (fun p => decide (pathLen G p = d))
  if short.length = 0 then 0
  else ((short.filter (fun p => decide (v ∈ p))).length : ℚ) / (short.length : ℚ)

/-- `nx.betweenness_centrality(G, weight="weight", normalized=True)`. -/
def betweenness_centrality (G : DiGraph) : List (Int × ℚ) :=
  let n := G.nodes.length
  let scale : ℚ := if n ≤ 2 then 1 else 1 / (((n : ℚ) - 1) * ((n : ℚ) - 2))
  (nodeIds G).map
    (fun v =>
      (v, scale *
        ((nodeIds G).foldl
          (fun acc s =>
            if s = v then acc
            else (nodeIds G).foldl
              (fun acc2 t =>
                if t = v ∨ t = s then acc2 else acc2 + pairDependency G s t v)
              acc)
          0)))

/-! ### Eigenvector centrality: component selection and attempt chain
(centrality_analysis.py lines 40–96).  The floating-point power iteration
inside `nx.eigenvector_centrality` is modelled as an oracle
`EigOracle`, consulted once per attempt: `some scores` means the call
converged, `none` that it raised `PowerIterationFailedConvergence`. -/

/-- Which connectivity notion produced the base component. -/
inductive CompType : Type
  | strongly : CompType
  | weakly : CompType
deriving DecidableEq, Repr

/-- The graph handed to one `nx.eigenvector_centrality` call: the base
component as-is or its undirected projection. -/
inductive AnaGraph : Type
  | dir : DiGraph → AnaGraph
  | und : UGraph → AnaGraph
deriving DecidableEq, Repr

def anaNodeIds : AnaGraph → List Int
  | AnaGraph.dir G => nodeIds G
  | AnaGraph.und U => uNodeIds U

/-- One convergence attempt: subgraph, whether `weight="weight"` is
passed, `max_iter`, and `tol`. -/
structure EigAttempt : Type where
  graph : AnaGraph
  useWeight : Bool
  maxIter : Nat
  tol : ℚ
deriving DecidableEq, Repr

/-- Outcome model for `nx.eigenvector_centrality`. -/
def EigOracle : Type := EigAttempt → Option (List (Int × ℚ))

/-- Component-selection policy (lines 42–53): prefer the whole graph if
strongly connected, else the largest strongly connected component when
non-trivial, else fall back to the largest weakly connected component. -/
def selectBase (G : DiGraph) : DiGraph × CompType :=
  if isStronglyConnected G then (G, CompType.strongly)
  else
    let scc := largestSCC G
    if 1 < scc.length then (inducedSubgraph G scc, CompType.strongly)
    else (inducedSubgraph G (largestWCC G), CompType.weakly)

/-- The attempt list (lines 57–64): directed weighted, undirected
weighted, undirected unweighted — each with `max_iter=10000, tol=1e-4` —
and, when the base came from the weakly-connected fallback, an undirected
weighted attempt inserted at the front. -/
def attemptsFor (base : DiGraph) (ctype : CompType) : List EigAttempt :=
  let l := [⟨AnaGraph.dir base, true, 10000, 1 / 10000⟩,
            ⟨AnaGraph.und (toUndirected base), true, 10000, 1 / 10000⟩,
            ⟨AnaGraph.und (toUndirected base), false, 10000, 1 / 10000⟩]
  if ctype = CompType.weakly then
    ⟨AnaGraph.und (toUndirected base), true, 10000, 1 / 10000⟩ :: l
  else l

/-- The final relaxed attempt (lines 81–86): undirected, unweighted,
`max_iter=20000, tol=1e-3`. -/
def relaxedAttempt (base : DiGraph) : EigAttempt :=
  ⟨AnaGraph.und (toUndirected base), false, 20000, 1 / 1000⟩

/-- First successful attempt in order, stopping at the first success. -/
def firstSome (oracle : EigOracle) : List EigAttempt → Option (List (Int × ℚ))
  | [] => none
  | a :: t =>
    match oracle a with
    | some s => some s
    | none => firstSome oracle t

/-- Python `dict.update`: overwrite existing keys in place, append new
ones. -/
def dictUpdate (d : List (Int × ℚ)) (upd : List (Int × ℚ)) : List (Int × ℚ) :=
  upd.foldl (fun cur p => upsert cur p.1 p.2) d

/-- Lines 91–93: zeros over the full node set, then `update` with the
component scores. -/
def projectBack (G : DiGraph) (eig : List (Int × ℚ)) : List (Int × ℚ) :=
  dictUpdate ((nodeIds G).map (fun n => (n, 0))) eig

/-- Analytics failures.  `emptyGraph` is the spec's `EmptyGraphError`
(the code raises `ValueError("Graph is empty or None")`); `convergence` is
the spec's `ConvergenceError` (the code raises `RuntimeError` after all
attempts fail). -/
inductive AnalyticsError : Type
  | emptyGraph : AnalyticsError
  | convergence : AnalyticsError
deriving DecidableEq, Repr

/-- The three score maps returned by `compute_centrality_measures`. -/
structure CentralityResult : Type where
  degree : List (Int × ℚ)
  betweenness : List (Int × ℚ)
  eigenvector : List (Int × ℚ)
deriving DecidableEq, Repr

/-- The eigenvector stage (lines 66–89): the attempt chain in order,
then the single relaxed attempt; `none` means every attempt failed to
converge. -/
def eigenStage (base : DiGraph) (ct : CompType) (oracle : EigOracle) :
    Option (List (Int × ℚ)) :=
  match firstSome oracle (attemptsFor base ct) with
  | some eig => some eig
  | none => oracle (relaxedAttempt base)

/-- `compute_centrality_measures(G)` (centrality_analysis.py lines
26–102): empty-graph check, degree centrality, weighted betweenness,
then eigenvector centrality through the attempt chain with the relaxed
final fallback, projected back onto the full node set.  Exhausting every
attempt raises the `ConvergenceError`. -/
def compute_centrality_measures (G : DiGraph) (oracle : EigOracle) :
    Except AnalyticsError CentralityResult :=
  if G.nodes.length = 0 then Except.error AnalyticsError.emptyGraph
  else
    let deg := degree_centrality G
    let btw := betweenness_centrality G
    let bc := selectBase G
    match eigenStage bc.1 bc.2 oracle with
    | some eig => Except.ok ⟨deg, btw, projectBack G eig⟩
    | none => Except.error AnalyticsError.convergence

/-! ### Community detection (community_detection.py) -/

/-- `_calc_sizes`, lines 13–18: count the nodes of each community id in
partition-iteration order, then sort the counts descending.  The `bump`
step is the dict update `sizes[cid] = sizes.get(cid, 0) + 1`. -/
def bumpSize (sizes : List (Int × Nat)) (cid : Int) : List (Int × Nat) :=
  match getVal sizes cid with
  | some c => upsert sizes cid (c + 1)
  | none => upsert sizes cid 1

/-- Descending insertion: place `a` after every element ≥ it (stable, as
Python `sorted(…, reverse=True)`). -/
def insertDesc (a : Nat) : List Nat → List Nat
  | [] => [a]
  | b :: t => if a ≤ b then b :: insertDesc a t else a :: b :: t

def sortDesc (l : List Nat) : List Nat := l.foldr insertDesc []

def calc_sizes (partition : List (Int × Int)) : List (Int × Nat) × List Nat :=
  let sizes := (partition.map Prod.snd).foldl bumpSize []
  (sizes, sortDesc (sizes.map Prod.snd))

/-- The Louvain call `community_louvain.best_partition(undirected,
weight="weight")`, an external library modelled as a function parameter;
its documented contract (a community id for every node of its input)
appears as a hypothesis where needed. -/
def LouvainOracle : Type := UGraph → List (Int × Int)

/-- `detect_communities(G)` (lines 21–57): empty-graph check, undirected
projection, Louvain partition, sizes and descending histogram.  The
optional Girvan–Newman sample (lines 41–55) only prints diagnostics and
never alters the returned triple, so it is not modelled. -/
def detect_communities (G : DiGraph) (louvain : LouvainOracle) :
    Except AnalyticsError (List (Int × Int) × Nat × List Nat) :=
  if G.nodes.length = 0 then Except.error AnalyticsError.emptyGraph
  else
    let undirected := toUndirected G
    let partition := louvain undirected
    let sl := calc_sizes partition
    Except.ok (partition, sl.1.length, sl.2)

/-! ### Lemmas about the dict primitives -/

theorem upsert_map_fst_of_mem {κ α : Type} [DecidableEq κ]
    (l : List (κ × α)) (k : κ) (a : α) (h : k ∈ l.map Prod.fst) :
    (upsert l k a).map Prod.fst = l.map Prod.fst := by
  induction l with
  | nil => simp at h
  | cons p t ih =>
    by_cases hk : p.1 = k
    · simp [upsert, hk]
    · simp only [List.map_cons, List.mem_cons] at h
      rcases h with h | h
    
      · exact absurd h.symm hk
      · simp [upsert, hk, ih h]

theorem upsert_map_fst_of_not_mem {κ α : Type} [DecidableEq κ]
    (l : List (κ × α)) (k : κ) (a : α) (h : k ∉ l.map Prod.fst) :
    (upsert l k a).map Prod.fst = l.map Prod.fst ++ [k] := by
  induction l with
  | nil => simp [upsert]
  | cons p t ih =>
    simp only [List.map_cons, List.mem_cons, not_or] at h
    have hne : ¬p.1 = k := fun hq => h.1 hq.symm
    simp [upsert, hne, ih h.2]

theorem upsert_length_of_mem {κ α : Type} [DecidableEq κ]
    (l : List (κ × α)) (k : κ) (a : α) (h : k ∈ l.map Prod.fst) :
    (upsert l k a).length = l.length := by
  have := congrArg List.length (upsert_map_fst_of_mem l k a h)
  simpa using this

theorem upsert_length_of_not_mem {κ α : Type} [DecidableEq κ]
    (l : List (κ × α)) (k : κ) (a : α) (h : k ∉ l.map Prod.fst) :
    (upsert l k a).length = l.length + 1 := by
  have := congrArg List.length (upsert_map_fst_of_not_mem l k a h)
  simpa using this

theorem mem_upsert_elem {κ α : Type} [DecidableEq κ]
    {l : List (κ × α)} {k : κ} {a : α} {p : κ × α} (h : p ∈ upsert l k a) :
    p ∈ l ∨ p = (k, a) := by
  induction l with
  | nil => simp [upsert] at h; simp [h]
  | cons q t ih =>
    by_cases hk : q.1 = k
    · simp only [upsert, hk, if_true, List.mem_cons] at h
      rcases h with h | h
      · right; exact h
      · left; simp [h]
    · simp only [upsert, hk, if_false, List.mem_cons] at h
      rcases h with h | h
      · left; simp [h]
      · rcases ih h with h2 | h2
        · left; simp [h2]
        · right; exact h2

theorem getVal_eq_none_iff {κ α : Type} [DecidableEq κ]
    (l : List (κ × α)) (k : κ) :
    getVal l k = none ↔ k ∉ l.map Prod.fst := by
  induction l with
  | nil => simp [getVal]
  | cons p t ih =>
    by_cases hk : p.1 = k
    · simp [getVal, hk]
    · simp only [getVal, hk, if_false, List.map_cons, List.mem_cons, ih]
      constructor
      · intro h hc
        rcases hc with hc | hc
        · exact hk hc.symm
        · exact h hc
      · intro h
        exact fun hc => h (Or.inr hc)

theorem upsert_eq_append_of_not_mem {κ α : Type} [DecidableEq κ]
    (l : List (κ × α)) (k : κ) (a : α) (h : k ∉ l.map Prod.fst) :
    upsert l k a = l ++ [(k, a)] := by
  induction l with
  | nil => simp [upsert]
  | cons p t ih =>
    simp only [List.map_cons, List.mem_cons, not_or] at h
    have hne : ¬p.1 = k := fun hq => h.1 hq.symm
    simp [upsert, hne, ih h.2]

theorem getVal_upsert_ne {κ α : Type} [DecidableEq κ]
    (l : List (κ × α)) (k k2 : κ) (a : α) (h : k2 ≠ k) :
    getVal (upsert l k a) k2 = getVal l k2 := by
  have hne : ¬k = k2 := fun hq => h hq.symm
  induction l with
  | nil => simp [upsert, getVal, hne]
  | cons p t ih =>
    by_cases hk : p.1 = k
    · simp [upsert, getVal, hk, hne]
    · by_cases hk2 : p.1 = k2
      · simp [upsert, getVal, hk, hk2, h]
      · simp [upsert, getVal, hk, hk2, ih]

theorem getVal_map_self_zero (l : List Int) (k : Int) (h : k ∈ l) :
    getVal (l.map (fun n => (n, (0 : ℚ)))) k = some 0 := by
  induction l with
  | nil => simp at h
  | cons a t ih =>
    by_cases ha : a = k
    · simp [getVal, ha]
    · simp only [List.mem_cons] at h
      rcases h with h | h
      · exact absurd h.symm ha
      · simp [getVal, ha, ih h]

theorem newCount_congr {κ : Type} [DecidableEq κ]
    (s t : List κ) (hst : ∀ x, x ∈ s ↔ x ∈ t) (l : List κ) :
    newCount s l = newCount t l := by
  induction l generalizing s t with
  | nil => rfl
  | cons a r ih =>
    by_cases ha : a ∈ s
    · simp [newCount, ha, (hst a).mp ha, ih s t hst]
    · have ha2 : a ∉ t := fun hc => ha ((hst a).mpr hc)
      have : ∀ x, x ∈ a :: s ↔ x ∈ a :: t := by
        intro x
        simp [List.mem_cons, hst x]
      simp [newCount, ha, ha2, ih (a :: s) (a :: t) this]

theorem newCount_add_dupCount {κ : Type} [DecidableEq κ]
    (l : List κ) : ∀ s : List κ, newCount s l + dupCount s l = l.length := by
  induction l with
  | nil => intro s; rfl
  | cons a t ih =>
    intro s
    by_cases ha : a ∈ s
    · simp only [newCount, dupCount, ha, if_true, List.length_cons]
      have := ih s
      omega
    · simp only [newCount, dupCount, ha, if_false, List.length_cons]
      have := ih (a :: s)
      omega

/-! ### Counting the skip categories of the edge loop -/

/-- Rows skipped by the endpoint check (dangling endpoints). -/
def danglingCount (N : List Int) (rows : List LinkRow) : Nat :=
  (rows.filter (fun r => !(endpointsOk N r))).length

/-- Rows that pass the endpoint check but fail the weight filter (the
code's `missing_weights` counter). -/
def weightSkipCount (N : List Int) (wcol : String) (rows : List LinkRow) : Nat :=
  (rows.filter (fun r => endpointsOk N r && weightBad (getCell r wcol))).length

/-- Ordered endpoint pairs of the rows whose edges are actually added. -/
def acceptedKeys (N : List Int) (wcol : String) (rows : List LinkRow) :
    List (Int × Int) :=
  (rows.filter (fun r => endpointsOk N r && !(weightBad (getCell r wcol)))).map
    (fun r => (r.from_node, r.to_node))

theorem rows_partition (N : List Int) (wcol : String) (rows : List LinkRow) :
    danglingCount N rows + weightSkipCount N wcol rows
      + (acceptedKeys N wcol rows).length = rows.length := by
  induction rows with
  | nil => rfl
  | cons r t ih =>
    simp only [danglingCount, weightSkipCount, acceptedKeys,
      List.length_map] at ih ⊢
    by_cases h1 : endpointsOk N r = true
    · by_cases h2 : weightBad (getCell r wcol) = true
      · simp [List.filter_cons, h1, h2]
        omega
      · simp only [Bool.not_eq_true] at h2
        simp [List.filter_cons, h1, h2]
        omega
    · simp only [Bool.not_eq_true] at h1
      simp [List.filter_cons, h1]
      omega

theorem endpointsOk_iff (N : List Int) (r : LinkRow) :
    endpointsOk N r = true ↔ r.from_node ∈ N ∧ r.to_node ∈ N := by
  simp [endpointsOk]

theorem ensureNode_of_mem (G : DiGraph) (n : Int) (h : n ∈ nodeIds G) :
    ensureNode G n = G := by
  simp [ensureNode, h]

theorem ensureNode_edges (G : DiGraph) (n : Int) :
    (ensureNode G n).edges = G.edges := by
  unfold ensureNode
  split <;> rfl

theorem addEdge_edges (G : DiGraph) (u v : Int) (d : EdgeData) :
    (addEdge G u v d).edges = upsert G.edges (u, v) d := by
  unfold addEdge
  simp [ensureNode_edges]

theorem addEdge_nodes_of_mem (G : DiGraph) (u v : Int) (d : EdgeData)
    (hu : u ∈ nodeIds G) (hv : v ∈ nodeIds G) :
    (addEdge G u v d).nodes = G.nodes := by
  unfold addEdge
  rw [ensureNode_of_mem G u hu, ensureNode_of_mem G v hv]

/-- The edge-loop invariant: folding `processRow` over the link rows
leaves the node dict unchanged, increments the counter once per
invalid-weight row that passed the endpoint check, grows the edge dict by
one entry per *new* accepted ordered pair, and only ever adds edges whose
endpoints are nodes. -/
theorem processRow_fold_spec (wcol : String) :
    ∀ (rows : List LinkRow) (G : DiGraph) (c : Nat),
      (rows.foldl (processRow wcol) (G, c)).1.nodes = G.nodes
      ∧ (rows.foldl (processRow wcol) (G, c)).2
          = c + weightSkipCount (nodeIds G) wcol rows
      ∧ (rows.foldl (processRow wcol) (G, c)).1.edges.length
          = G.edges.length + newCount (edgeKeys G) (acceptedKeys (nodeIds G) wcol rows)
      ∧ ∀ e ∈ (rows.foldl (processRow wcol) (G, c)).1.edges,
          e ∈ G.edges ∨ (e.1.1 ∈ nodeIds G ∧ e.1.2 ∈ nodeIds G) := by
  intro rows
  induction rows with
  | nil =>
    intro G c
    refine ⟨rfl, by simp [weightSkipCount], by simp [acceptedKeys, newCount], ?_⟩
    intro e he
    exact Or.inl he
  | cons r t ih =>
    intro G c
    by_cases h1 : endpointsOk (nodeIds G) r = true
    · by_cases h2 : weightBad (getCell r wcol) = true
      · have hstep : processRow wcol (G, c) r = (G, c + 1) := by
          simp [processRow, h1, h2]
        have ihs := ih G (c + 1)
        have hw : weightSkipCount (nodeIds G) wcol (r :: t)
            = weightSkipCount (nodeIds G) wcol t + 1 := by
          simp [weightSkipCount, List.filter_cons, h1, h2]
        have ha : acceptedKeys (nodeIds G) wcol (r :: t)
            = acceptedKeys (nodeIds G) wcol t := by
          simp [acceptedKeys, List.filter_cons, h1, h2]
        simp only [List.foldl_cons, hstep]
        refine ⟨ihs.1, ?_, ?_, ihs.2.2.2⟩
        · rw [ihs.2.1, hw]; omega
        · rw [ihs.2.2.1, ha]
      · simp only [Bool.not_eq_true] at h2
        have hu : r.from_node ∈ nodeIds G := ((endpointsOk_iff _ r).mp h1).1
        have hv : r.to_node ∈ nodeIds G := ((endpointsOk_iff _ r).mp h1).2
        set d : EdgeData :=
          ⟨r.link_id, r.length, r.freeflow_time, r.congested_time, getCell r wcol⟩ with hd
        have hstep : processRow wcol (G, c) r
            = (addEdge G r.from_node r.to_node d, c) := by
          simp [processRow, h1, h2, hd]
        set G2 := addEdge G r.from_node r.to_node d with hG2
        have hnodes2 : G2.nodes = G.nodes :=
          addEdge_nodes_of_mem G _ _ d hu hv
        have hids2 : nodeIds G2 = nodeIds G := by
          simp [nodeIds, hnodes2]
        have hedges2 : G2.edges = upsert G.edges (r.from_node, r.to_node) d :=
          addEdge_edges G _ _ d
        have ihs := ih G2 c
        have ha : acceptedKeys (nodeIds G) wcol (r :: t)
            = (r.from_node, r.to_node) :: acceptedKeys (nodeIds G) wcol t := by
          simp [acceptedKeys, List.filter_cons, h1, h2]
        simp only [List.foldl_cons, hstep]
        refine ⟨by rw [ihs.1, hnodes2], ?_, ?_, ?_⟩
        · rw [ihs.2.1, hids2]
          have hw : weightSkipCount (nodeIds G) wcol (r :: t)
              = weightSkipCount (nodeIds G) wcol t := by
            simp [weightSkipCount, List.filter_cons, h1, h2]
          rw [hw]
        · rw [ihs.2.2.1, hids2, ha]
          by_cases hk : (r.from_node, r.to_node) ∈ edgeKeys G
          · have hlen : G2.edges.length = G.edges.length := by
              rw [hedges2]
              exact upsert_length_of_mem _ _ _ hk
            have hkeys : edgeKeys G2 = edgeKeys G := by
              simp only [edgeKeys, hedges2]
              exact upsert_map_fst_of_mem _ _ _ hk
            rw [hlen, hkeys]
            simp [newCount, hk]
          · have hlen : G2.edges.length = G.edges.length + 1 := by
              rw [hedges2]
              exact upsert_length_of_not_mem _ _ _ hk
            have hkeys : edgeKeys G2 = edgeKeys G ++ [(r.from_node, r.to_node)] := by
              simp only [edgeKeys, hedges2]
              exact upsert_map_fst_of_not_mem _ _ _ hk
            have hcongr : newCount (edgeKeys G2)
                (acceptedKeys (nodeIds G) wcol t)
                = newCount ((r.from_node, r.to_node) :: edgeKeys G)
                  (acceptedKeys (nodeIds G) wcol t) := by
              apply newCount_congr
              intro x
              simp [hkeys, List.mem_append, List.mem_cons, or_comm]
            rw [hlen, hcongr]
            simp only [newCount, hk, if_false]
            omega
        · intro e he
          rcases ihs.2.2.2 e he with hin | hnew
          · rw [hedges2] at hin
            rcases mem_upsert_elem hin with h3 | h3
            · exact Or.inl h3
            · right
              rw [h3]
              exact ⟨hu, hv⟩
          · right
            rw [hids2] at hnew
            exact hnew
    · simp only [Bool.not_eq_true] at h1
      have hstep : processRow wcol (G, c) r = (G, c) := by
        simp [processRow, h1]
      have ihs := ih G c
      have hw : weightSkipCount (nodeIds G) wcol (r :: t)
          = weightSkipCount (nodeIds G) wcol t := by
        simp [weightSkipCount, List.filter_cons, h1]
      have ha : acceptedKeys (nodeIds G) wcol (r :: t)
          = acceptedKeys (nodeIds G) wcol t := by
        simp [acceptedKeys, List.filter_cons, h1]
      simp only [List.foldl_cons, hstep]
      exact ⟨ihs.1, by rw [ihs.2.1, hw], by rw [ihs.2.2.1, ha], ihs.2.2.2⟩

theorem addNode_edges (G : DiGraph) (n : Int) (lon lat : ℚ) :
    (addNode G n lon lat).edges = G.edges := rfl

theorem foldl_addNode_edges :
    ∀ (l : List NodeRow) (G : DiGraph),
      (l.foldl (fun G2 r => addNode G2 r.node_id r.lon r.lat) G).edges = G.edges := by
  intro l
  induction l with
  | nil => intro G; rfl
  | cons r t ih =>
    intro G
    simp only [List.foldl_cons, ih, addNode_edges]

theorem buildNodes_edges (l : List NodeRow) : (buildNodes l).edges = [] :=
  foldl_addNode_edges l emptyDiGraph

/-- The node loop adds one dict entry per first occurrence of a node id
(later duplicates overwrite in place). -/
theorem foldl_addNode_length :
    ∀ (l : List NodeRow) (G : DiGraph),
      (l.foldl (fun G2 r => addNode G2 r.node_id r.lon r.lat) G).nodes.length
        = G.nodes.length + newCount (nodeIds G) (l.map NodeRow.node_id) := by
  intro l
  induction l with
  | nil =>
    intro G
    simp [newCount]
  | cons r t ih =>
    intro G
    set G2 := addNode G r.node_id r.lon r.lat with hG2
    by_cases hm : r.node_id ∈ nodeIds G
    · have hlen : G2.nodes.length = G.nodes.length := by
        simp only [hG2, addNode]
        exact upsert_length_of_mem _ _ _ hm
      have hids : nodeIds G2 = nodeIds G := by
        simp only [nodeIds, hG2, addNode]
        exact upsert_map_fst_of_mem _ _ _ hm
      simp only [List.foldl_cons, List.map_cons, newCount, hm, if_true]
      rw [ih G2, hids, hlen]
    · have hlen : G2.nodes.length = G.nodes.length + 1 := by
        simp only [hG2, addNode]
        exact upsert_length_of_not_mem _ _ _ hm
      have hids : nodeIds G2 = nodeIds G ++ [r.node_id] := by
        simp only [nodeIds, hG2, addNode]
        exact upsert_map_fst_of_not_mem _ _ _ hm
      have hcongr : newCount (nodeIds G2) (t.map NodeRow.node_id)
          = newCount (r.node_id :: nodeIds G) (t.map NodeRow.node_id) := by
        apply newCount_congr
        intro x
        simp [hids, List.mem_append, List.mem_cons, or_comm]
      simp only [List.foldl_cons, List.map_cons, newCount, hm, if_false]
      rw [ih G2, hcongr, hlen]
      omega

theorem buildNodes_length (l : List NodeRow) :
    (buildNodes l).nodes.length = distinctCount (l.map NodeRow.node_id) := by
  have := foldl_addNode_length l emptyDiGraph
  simpa [buildNodes, distinctCount, nodeIds, emptyDiGraph] using this

theorem mem_upsert_key {κ α : Type} [DecidableEq κ]
    (l : List (κ × α)) (k : κ) (a : α) :
    k ∈ (upsert l k a).map Prod.fst := by
  by_cases h : k ∈ l.map Prod.fst
  · rw [upsert_map_fst_of_mem _ _ _ h]; exact h
  · rw [upsert_map_fst_of_not_mem _ _ _ h]; simp

/-- C2 counterexample.  Concrete input: nodes {1, 2}; link row 10 is
`1→2` with weight `+inf` in `travel_time_AM`; link row 11 is `1→7`
(dangling endpoint) with a *missing* weight.  The code builds the edge
`(1,2)` although `+inf` is not a finite, strictly positive number
(`specWeightOk` is the spec's acceptance predicate and rejects it), and
the skip counter stays 0 although row 11's weight is missing — refuting
both the "only if finite" and the "missing weight is counted" parts of
the claim. -/
theorem claimC2_counterexample :
    (build_graph [⟨1, 0, 0⟩, ⟨2, 0, 0⟩]
        ⟨["travel_time_AM"],
         [⟨10, 1, 2, 5, 1, 2, [("travel_time_AM", Cell.posInf)]⟩,
          ⟨11, 1, 7, 5, 1, 2, [("travel_time_AM", Cell.missing)]⟩]⟩
        "congested" (some "AM")).toOption.map
      (fun gc => (edgeKeys gc.1, gc.2)) = some ([(1, 2)], 0)
    ∧ specWeightOk Cell.posInf = false
    ∧ weightBad Cell.missing = true := by
  exact ⟨by decide, rfl, rfl⟩

/-- C2 (amended): for every link row, the edge loop (a) drops a row whose
endpoints are not both in the node set, silently, without touching the
counter and without any error; (b) drops a row that passes the endpoint
check but whose weight is missing, NaN, or ≤ 0 (−∞ included) and
increments the skip counter; (c) otherwise adds the directed edge with
its full attribute set.  The accepted weights are exactly the strictly
positive finite numbers *and positive infinity* — not the spec's
"finite, strictly positive". -/
theorem claimC2_theorem (wcol : String) (G : DiGraph) (c : Nat) (r : LinkRow) :
    (endpointsOk (nodeIds G) r = false → processRow wcol (G, c) r = (G, c))
    ∧ (endpointsOk (nodeIds G) r = true → weightBad (getCell r wcol) = true →
        processRow wcol (G, c) r = (G, c + 1))
    ∧ (endpointsOk (nodeIds G) r = true → weightBad (getCell r wcol) = false →
        processRow wcol (G, c) r
          = (addEdge G r.from_node r.to_node
              ⟨r.link_id, r.length, r.freeflow_time, r.congested_time,
               getCell r wcol⟩, c)
          ∧ (r.from_node, r.to_node) ∈ edgeKeys (processRow wcol (G, c) r).1)
    ∧ (∀ w : Cell,
        weightBad w = false ↔ ((∃ q, w = Cell.num q ∧ 0 < q) ∨ w = Cell.posInf)) := by
  refine ⟨?_, ?_, ?_, ?_⟩
  · intro h
    simp [processRow, h]
  · intro h1 h2
    simp [processRow, h1, h2]
  · intro h1 h2
    have hstep : processRow wcol (G, c) r
        = (addEdge G r.from_node r.to_node
            ⟨r.link_id, r.length, r.freeflow_time, r.congested_time,
             getCell r wcol⟩, c) := by
      simp [processRow, h1, h2]
    refine ⟨hstep, ?_⟩
    rw [hstep]
    simp only [edgeKeys, addEdge_edges]
    exact mem_upsert_key _ _ _
  · intro w
    cases w with
    | missing => simp [weightBad]
    | nan => simp [weightBad]
    | posInf => simp [weightBad]
    | negInf => simp [weightBad]
    | num q =>
      simp only [weightBad, decide_eq_false_iff_not, not_le]
      constructor
      · intro h
        exact Or.inl ⟨q, rfl, h⟩
      · intro h
        rcases h with ⟨q2, hq, hpos⟩ | h
        · cases hq
          exact hpos
        · cases h

/-- Witness for C2: the accepted branch at a concrete graph and row. -/
theorem claimC2_witness :
    processRow "congested_time" (⟨[(1, none), (2, none)], []⟩, 0) ⟨7, 1, 2, 5, 1, 3, []⟩
      = (addEdge ⟨[(1, none), (2, none)], []⟩ 1 2
          ⟨7, 5, 1, 3, Cell.num 3⟩, 0) :=
  ((claimC2_theorem ("congested_time") ⟨[(1, none), (2, none)], []⟩ 0
      ⟨7, 1, 2, 5, 1, 3, []⟩).2.2.1 (by decide) (by decide)).1

/-- C3 counterexample.  Concrete input: nodes {1, 2} and two valid link
rows both `1→2` (duplicate ordered pair).  No dangling skip, no
invalid-weight skip (the returned counter is 0), yet the edge count is 1
against 2 link rows: the gap of 1 is a duplicate overwrite, not a skip,
refuting "the gap equal to exactly dangling skips + invalid-weight
skips". -/
theorem claimC3_counterexample :
    (build_graph [⟨1, 0, 0⟩, ⟨2, 0, 0⟩]
        ⟨["congested_time"],
         [⟨20, 1, 2, 5, 1, 2, []⟩, ⟨21, 1, 2, 6, 1, 3, []⟩]⟩
        "congested" none).toOption.map
      (fun gc => (gc.1.edges.length, gc.2)) = some (1, 0)
    ∧ danglingCount [1, 2] [⟨20, 1, 2, 5, 1, 2, []⟩, ⟨21, 1, 2, 6, 1, 3, []⟩] = 0 := by
  exact ⟨by decide, by decide⟩

/-- C3 (amended): every edge endpoint of a built graph is in its node
set; the node count equals the number of distinct node ids of the node
table; the returned skip counter counts exactly the endpoint-passing
rows with invalid weight; and the edge count falls short of the link row
count by exactly (dangling-endpoint skips + invalid-weight skips +
duplicate-ordered-pair overwrites among accepted rows). -/
theorem claimC3_theorem (nodes_df : List NodeRow) (links : LinksDf)
    (wt : String) (period : Option String) (wcol : String) (G : DiGraph) (c : Nat)
    (hres : resolveWeightCol wt period links.columns = Except.ok wcol)
    (hok : build_graph nodes_df links wt period = Except.ok (G, c)) :
    (∀ e ∈ G.edges, e.1.1 ∈ nodeIds G ∧ e.1.2 ∈ nodeIds G)
    ∧ G.nodes.length = distinctCount (nodes_df.map NodeRow.node_id)
    ∧ c = weightSkipCount (nodeIds (buildNodes nodes_df)) wcol links.rows
    ∧ G.edges.length
        + (danglingCount (nodeIds (buildNodes nodes_df)) links.rows
           + weightSkipCount (nodeIds (buildNodes nodes_df)) wcol links.rows
           + dupCount [] (acceptedKeys (nodeIds (buildNodes nodes_df)) wcol links.rows))
        = links.rows.length
    ∧ G.edges.length ≤ links.rows.length := by
  have hb : links.rows.foldl (processRow wcol) (buildNodes nodes_df, 0) = (G, c) := by
    simp only [build_graph, hres] at hok
    exact Except.ok.inj hok
  have spec := processRow_fold_spec wcol links.rows (buildNodes nodes_df) 0
  rw [hb] at spec
  have hnodes : G.nodes = (buildNodes nodes_df).nodes := spec.1
  have hids : nodeIds G = nodeIds (buildNodes nodes_df) := by
    simp [nodeIds, hnodes]
  have hkeys0 : edgeKeys (buildNodes nodes_df) = [] := by
    simp [edgeKeys, buildNodes_edges]
  have hlen : G.edges.length
      = newCount [] (acceptedKeys (nodeIds (buildNodes nodes_df)) wcol links.rows) := by
    have := spec.2.2.1
    rw [buildNodes_edges, hkeys0] at this
    simpa using this
  have hpart := rows_partition (nodeIds (buildNodes nodes_df)) wcol links.rows
  have hnd := newCount_add_dupCount
    (acceptedKeys (nodeIds (buildNodes nodes_df)) wcol links.rows) []
  refine ⟨?_, ?_, ?_, ?_, ?_⟩
  · intro e he
    rcases spec.2.2.2 e he with h | h
    · rw [buildNodes_edges] at h
      cases h
    · rw [hids]
      exact h
  · rw [congrArg List.length hnodes]
    exact buildNodes_length nodes_df
  · have := spec.2.1
    simpa using this
  · omega
  · omega

/-- Witness for C3 at a concrete one-row build. -/
theorem claimC3_witness :
    (⟨[(1, some (0, 0)), (2, some (0, 0))],
      [((1, 2), ⟨20, 5, 1, 2, Cell.num 2⟩)]⟩ : DiGraph).nodes.length
      = distinctCount (([⟨1, 0, 0⟩, ⟨2, 0, 0⟩] : List NodeRow).map NodeRow.node_id) :=
  (claimC3_theorem [⟨1, 0, 0⟩, ⟨2, 0, 0⟩]
    ⟨["congested_time"], [⟨20, 1, 2, 5, 1, 2, []⟩]⟩ "congested" none
    "congested_time" _ 0 rfl rfl).2.1

/-- C4: a period whose `travel_time_<period>` column is absent always
fails with the missing-column `ConfigurationError`, and with no period an
unrecognized static weight_type always fails with the bad-weight-type
`ConfigurationError`; in the `Except` model an error result carries no
graph, so no partial graph is returned. -/
theorem claimC4_theorem :
    (∀ (nodes_df : List NodeRow) (links : LinksDf) (wt p : String),
      ("travel_time_" ++ p) ∉ links.columns →
      build_graph nodes_df links wt (some p)
        = Except.error (BuildError.missingColumn ("travel_time_" ++ p)))
    ∧ (∀ (nodes_df : List NodeRow) (links : LinksDf) (wt : String),
      wt ≠ "freeflow" → wt ≠ "congested" →
      build_graph nodes_df links wt none
        = Except.error (BuildError.badWeightType wt)) := by
  constructor
  · intro nodes_df links wt p h
    simp [build_graph, resolveWeightCol, h]
  · intro nodes_df links wt h1 h2
    simp [build_graph, resolveWeightCol, h1, h2]

/-- Witness for C4: both configuration failures at concrete inputs. -/
theorem claimC4_witness :
    build_graph [] ⟨[], []⟩ "congested" (some "AM")
        = Except.error (BuildError.missingColumn "travel_time_AM")
    ∧ build_graph [] ⟨[], []⟩ "bogus" none
        = Except.error (BuildError.badWeightType "bogus") :=
  ⟨claimC4_theorem.1 [] ⟨[], []⟩ "congested" "AM" (by decide),
   claimC4_theorem.2 [] ⟨[], []⟩ "bogus" (by decide) (by decide)⟩

/-- C10: when a period is given, `weight_type` is never consulted — the
result is identical for every `weight_type`, and the build succeeds
whenever the `travel_time_<period>` column exists, even for a
`weight_type` outside the two recognized static options. -/
theorem claimC10_theorem (nodes_df : List NodeRow) (links : LinksDf)
    (wt p : String) :
    (("travel_time_" ++ p) ∈ links.columns →
      ∃ G c, build_graph nodes_df links wt (some p) = Except.ok (G, c))
    ∧ build_graph nodes_df links wt (some p)
        = build_graph nodes_df links "congested" (some p) := by
  constructor
  · intro h
    simp only [build_graph, resolveWeightCol, h, if_true]
    exact ⟨_, _, rfl⟩
  · rfl

/-- Witness for C10: an invalid static option is accepted when a valid
period is requested. -/
theorem claimC10_witness :
    ∃ G c, build_graph [⟨1, 0, 0⟩] ⟨["travel_time_AM"], []⟩ "bogus" (some "AM")
      = Except.ok (G, c) :=
  (claimC10_theorem [⟨1, 0, 0⟩] ⟨["travel_time_AM"], []⟩ "bogus" "AM").1 (by decide)

/-! ### Lemmas for the eigenvector attempt chain -/

theorem firstSome_eq_none (oracle : EigOracle) :
    ∀ l : List EigAttempt, (∀ a ∈ l, oracle a = none) → firstSome oracle l = none := by
  intro l
  induction l with
  | nil => intro _; rfl
  | cons a t ih =>
    intro h
    have ha := h a (List.mem_cons_self a t)
    simp only [firstSome, ha]
    exact ih (fun b hb => h b (List.mem_cons_of_mem a hb))

theorem firstSome_eq_some (oracle : EigOracle) :
    ∀ (l : List EigAttempt) (s : List (Int × ℚ)),
      firstSome oracle l = some s → ∃ a ∈ l, oracle a = some s := by
  intro l
  induction l with
  | nil => intro s h; cases h
  | cons a t ih =>
    intro s h
    cases ha : oracle a with
    | some s2 =>
      simp only [firstSome, ha] at h
      cases h
      exact ⟨a, List.mem_cons_self a t, ha⟩
    | none =>
      simp only [firstSome, ha] at h
      rcases ih s h with ⟨b, hb, hob⟩
      exact ⟨b, List.mem_cons_of_mem a hb, hob⟩

theorem uNodeIds_toUndirected (G : DiGraph) :
    uNodeIds (toUndirected G) = nodeIds G := rfl

theorem attemptsFor_strongly (base : DiGraph) :
    attemptsFor base CompType.strongly
      = [⟨AnaGraph.dir base, true, 10000, 1 / 10000⟩,
         ⟨AnaGraph.und (toUndirected base), true, 10000, 1 / 10000⟩,
         ⟨AnaGraph.und (toUndirected base), false, 10000, 1 / 10000⟩] := rfl

theorem attemptsFor_weakly (base : DiGraph) :
    attemptsFor base CompType.weakly
      = [⟨AnaGraph.und (toUndirected base), true, 10000, 1 / 10000⟩,
         ⟨AnaGraph.dir base, true, 10000, 1 / 10000⟩,
         ⟨AnaGraph.und (toUndirected base), true, 10000, 1 / 10000⟩,
         ⟨AnaGraph.und (toUndirected base), false, 10000, 1 / 10000⟩] := rfl

/-- Every attempt in the chain — and the relaxed attempt — runs on a
graph with exactly the base component's node set. -/
theorem attempts_nodeIds (base : DiGraph) (ct : CompType) :
    (∀ a ∈ attemptsFor base ct, anaNodeIds a.graph = nodeIds base)
    ∧ anaNodeIds (relaxedAttempt base).graph = nodeIds base := by
  constructor
  · intro a ha
    cases ct with
    | strongly =>
      rw [attemptsFor_strongly] at ha
      simp only [List.mem_cons, List.not_mem_nil, or_false] at ha
      rcases ha with h | h | h
      all_goals subst h
      all_goals rfl
    | weakly =>
      rw [attemptsFor_weakly] at ha
      simp only [List.mem_cons, List.not_mem_nil, or_false] at ha
      rcases ha with h | h | h | h
      all_goals subst h
      all_goals rfl
  · rfl

theorem nodeIds_inducedSubgraph_subset (G : DiGraph) (s : List Int) :
    ∀ x ∈ nodeIds (inducedSubgraph G s), x ∈ nodeIds G := by
  intro x hx
  simp only [nodeIds, inducedSubgraph, List.mem_map] at hx ⊢
  rcases hx with ⟨p, hp, hpx⟩
  exact ⟨p, List.mem_of_mem_filter hp, hpx⟩

theorem selectBase_nodeIds_subset (G : DiGraph) :
    ∀ x ∈ nodeIds (selectBase G).1, x ∈ nodeIds G := by
  intro x hx
  unfold selectBase at hx
  by_cases h1 : isStronglyConnected G = true
  · simpa [h1] using hx
  · simp only [Bool.not_eq_true] at h1
    rw [h1] at hx
    simp only [Bool.false_eq_true, if_false] at hx
    by_cases h2 : 1 < (largestSCC G).length
    · rw [if_pos h2] at hx
      exact nodeIds_inducedSubgraph_subset G _ x hx
    · rw [if_neg h2] at hx
      exact nodeIds_inducedSubgraph_subset G _ x hx

/-- C9: both analytics entry points reject a zero-node graph up front
with the `EmptyGraphError`, before computing anything. -/
theorem claimC9_theorem (G : DiGraph) (oracle : EigOracle)
    (louvain : LouvainOracle) (h : G.nodes.length = 0) :
    compute_centrality_measures G oracle = Except.error AnalyticsError.emptyGraph
    ∧ detect_communities G louvain = Except.error AnalyticsError.emptyGraph := by
  constructor
  · simp [compute_centrality_measures, h]
  · simp [detect_communities, h]

/-- Witness for C9: the empty graph. -/
theorem claimC9_witness :
    compute_centrality_measures ⟨[], []⟩ (fun _ => none)
        = Except.error AnalyticsError.emptyGraph
    ∧ detect_communities ⟨[], []⟩ (fun _ => [])
        = Except.error AnalyticsError.emptyGraph :=
  claimC9_theorem ⟨[], []⟩ (fun _ => none) (fun _ => []) rfl

/-- C1: on a graph that is not strongly connected and whose largest
strongly connected component is a singleton, the base component is the
induced subgraph of the largest weakly connected component, the attempt
chain opens with the undirected weighted attempt on it — before the
directed weighted attempt in position two — and when that first attempt
converges its scores are the ones `compute_centrality_measures` returns
(the directed attempt is never consulted). -/
theorem claimC1_theorem (G : DiGraph)
    (h1 : isStronglyConnected G = false)
    (h2 : (largestSCC G).length = 1) :
    selectBase G = (inducedSubgraph G (largestWCC G), CompType.weakly)
    ∧ attemptsFor (inducedSubgraph G (largestWCC G)) CompType.weakly
        = [⟨AnaGraph.und (toUndirected (inducedSubgraph G (largestWCC G))),
            true, 10000, 1 / 10000⟩,
           ⟨AnaGraph.dir (inducedSubgraph G (largestWCC G)), true, 10000, 1 / 10000⟩,
           ⟨AnaGraph.und (toUndirected (inducedSubgraph G (largestWCC G))),
            true, 10000, 1 / 10000⟩,
           ⟨AnaGraph.und (toUndirected (inducedSubgraph G (largestWCC G))),
            false, 10000, 1 / 10000⟩]
    ∧ ∀ (oracle : EigOracle) (s : List (Int × ℚ)),
        G.nodes.length ≠ 0 →
        oracle ⟨AnaGraph.und (toUndirected (inducedSubgraph G (largestWCC G))),
                true, 10000, 1 / 10000⟩ = some s →
        compute_centrality_measures G oracle
          = Except.ok ⟨degree_centrality G, betweenness_centrality G,
                       projectBack G s⟩ := by
  have hsel : selectBase G = (inducedSubgraph G (largestWCC G), CompType.weakly) := by
    simp [selectBase, h1, h2]
  refine ⟨hsel, attemptsFor_weakly _, ?_⟩
  intro oracle s hne hor
  have hstage : eigenStage (inducedSubgraph G (largestWCC G)) CompType.weakly oracle
      = some s := by
    simp only [eigenStage, attemptsFor_weakly, firstSome, hor]
  simp only [compute_centrality_measures, if_neg hne, hsel, hstage]

/-- Witness for C1: the directed chain `1→2→3`. -/
theorem claimC1_witness :
    selectBase ⟨[(1, none), (2, none), (3, none)],
        [((1, 2), ⟨1, 1, 1, 1, Cell.num 2⟩), ((2, 3), ⟨2, 1, 1, 1, Cell.num 3⟩)]⟩
      = (inducedSubgraph
          ⟨[(1, none), (2, none), (3, none)],
           [((1, 2), ⟨1, 1, 1, 1, Cell.num 2⟩), ((2, 3), ⟨2, 1, 1, 1, Cell.num 3⟩)]⟩
          (largestWCC
            ⟨[(1, none), (2, none), (3, none)],
             [((1, 2), ⟨1, 1, 1, 1, Cell.num 2⟩), ((2, 3), ⟨2, 1, 1, 1, Cell.num 3⟩)]⟩),
         CompType.weakly) :=
  (claimC1_theorem
    ⟨[(1, none), (2, none), (3, none)],
     [((1, 2), ⟨1, 1, 1, 1, Cell.num 2⟩), ((2, 3), ⟨2, 1, 1, 1, Cell.num 3⟩)]⟩
    (by decide) (by decide)).1

/-- C6: when every chained attempt fails, the single remaining attempt is
the relaxed one — undirected projection of the base component, no weight,
`max_iter` 20000, `tol` 1e-3 — and when it fails too the operation fails
with the `ConvergenceError` alone; the degree and betweenness maps a
successful run returns are functions of the graph only (they never depend
on the eigenvector oracle), so those metrics stay deliverable. -/
theorem claimC6_theorem (G : DiGraph) (oracle : EigOracle)
    (hne : G.nodes.length ≠ 0)
    (hall : ∀ a ∈ attemptsFor (selectBase G).1 (selectBase G).2, oracle a = none)
    (hrel : oracle (relaxedAttempt (selectBase G).1) = none) :
    compute_centrality_measures G oracle = Except.error AnalyticsError.convergence
    ∧ relaxedAttempt (selectBase G).1
        = ⟨AnaGraph.und (toUndirected (selectBase G).1), false, 20000, 1 / 1000⟩
    ∧ ∀ (o2 : EigOracle) (r : CentralityResult),
        compute_centrality_measures G o2 = Except.ok r →
        r.degree = degree_centrality G ∧ r.betweenness = betweenness_centrality G := by
  have hstage : eigenStage (selectBase G).1 (selectBase G).2 oracle = none := by
    simp only [eigenStage, firstSome_eq_none oracle _ hall, hrel]
  refine ⟨?_, rfl, ?_⟩
  · simp only [compute_centrality_measures, if_neg hne, hstage]
  · intro o2 r h
    simp only [compute_centrality_measures, if_neg hne] at h
    cases hst : eigenStage (selectBase G).1 (selectBase G).2 o2 with
    | some s =>
      rw [hst] at h
      have := Except.ok.inj h
      rw [← this]
      exact ⟨rfl, rfl⟩
    | none =>
      rw [hst] at h
      cases h

/-- Witness for C6: the chain `1→2→3` with an oracle that never
converges. -/
theorem claimC6_witness :
    compute_centrality_measures
      ⟨[(1, none), (2, none), (3, none)],
       [((1, 2), ⟨1, 1, 1, 1, Cell.num 2⟩), ((2, 3), ⟨2, 1, 1, 1, Cell.num 3⟩)]⟩
      (fun _ => none) = Except.error AnalyticsError.convergence :=
  (claimC6_theorem
    ⟨[(1, none), (2, none), (3, none)],
     [((1, 2), ⟨1, 1, 1, 1, Cell.num 2⟩), ((2, 3), ⟨2, 1, 1, 1, Cell.num 3⟩)]⟩
    (fun _ => none) (by decide) (fun a _ => rfl) rfl).1

/-! ### Lemmas about the projection back onto the full node set -/

theorem dictUpdate_map_fst_of_subset :
    ∀ (s d : List (Int × ℚ)),
      (∀ k ∈ s.map Prod.fst, k ∈ d.map Prod.fst) →
      (dictUpdate d s).map Prod.fst = d.map Prod.fst := by
  intro s
  induction s with
  | nil => intro d _; rfl
  | cons q t ih =>
    intro d h
    have hq : q.1 ∈ d.map Prod.fst := h q.1 (by simp)
    have hkeys : (upsert d q.1 q.2).map Prod.fst = d.map Prod.fst :=
      upsert_map_fst_of_mem _ _ _ hq
    have hsub : ∀ k ∈ t.map Prod.fst, k ∈ (upsert d q.1 q.2).map Prod.fst := by
      intro k hk
      rw [hkeys]
      exact h k (by simp [hk])
    calc (dictUpdate d (q :: t)).map Prod.fst
        = (dictUpdate (upsert d q.1 q.2) t).map Prod.fst := rfl
      _ = (upsert d q.1 q.2).map Prod.fst := ih _ hsub
      _ = d.map Prod.fst := hkeys

theorem mem_dictUpdate_elem :
    ∀ (s d : List (Int × ℚ)) (p : Int × ℚ),
      p ∈ dictUpdate d s → p ∈ d ∨ p ∈ s := by
  intro s
  induction s with
  | nil => intro d p h; exact Or.inl h
  | cons q t ih =>
    intro d p h
    have h2 : p ∈ dictUpdate (upsert d q.1 q.2) t := h
    rcases ih _ p h2 with h3 | h3
    · rcases mem_upsert_elem h3 with h4 | h4
      · exact Or.inl h4
      · right
        rw [h4]
        simp
    · right
      exact List.mem_cons_of_mem q h3

theorem upsert_sum_zero :
    ∀ (d : List (Int × ℚ)) (k : Int) (a : ℚ), getVal d k = some 0 →
      ((upsert d k a).map Prod.snd).sum = (d.map Prod.snd).sum + a := by
  intro d
  induction d with
  | nil => intro k a h; cases h
  | cons p t ih =>
    intro k a h
    by_cases hk : p.1 = k
    · simp only [getVal, hk, if_true, Option.some.injEq] at h
      simp only [upsert, hk, if_true, List.map_cons, List.sum_cons, h]
      ring
    · simp only [getVal, hk, if_false] at h
      simp only [upsert, hk, if_false, List.map_cons, List.sum_cons, ih k a h]
      ring

theorem dictUpdate_sum :
    ∀ (s d : List (Int × ℚ)),
      (s.map Prod.fst).Nodup →
      (∀ k ∈ s.map Prod.fst, getVal d k = some 0) →
      ((dictUpdate d s).map Prod.snd).sum
        = (d.map Prod.snd).sum + (s.map Prod.snd).sum := by
  intro s
  induction s with
  | nil => intro d _ _; simp [dictUpdate]
  | cons q t ih =>
    intro d hnd h
    simp only [List.map_cons, List.nodup_cons] at hnd
    have hsum1 : ((upsert d q.1 q.2).map Prod.snd).sum
        = (d.map Prod.snd).sum + q.2 :=
      upsert_sum_zero d q.1 q.2 (h q.1 (by simp))
    have h2 : ∀ k ∈ t.map Prod.fst, getVal (upsert d q.1 q.2) k = some 0 := by
      intro k hk
      have hne : k ≠ q.1 := fun he => hnd.1 (he ▸ hk)
      rw [getVal_upsert_ne d q.1 k q.2 hne]
      exact h k (by simp [hk])
    calc ((dictUpdate d (q :: t)).map Prod.snd).sum
        = ((dictUpdate (upsert d q.1 q.2) t).map Prod.snd).sum := rfl
      _ = ((upsert d q.1 q.2).map Prod.snd).sum + (t.map Prod.snd).sum :=
          ih _ hnd.2 h2
      _ = (d.map Prod.snd).sum + (q.2 + (t.map Prod.snd).sum) := by
          rw [hsum1]; ring
      _ = (d.map Prod.snd).sum + ((q :: t).map Prod.snd).sum := by
          simp [List.sum_cons]

theorem zeros_map_fst (l : List Int) :
    (l.map (fun n => (n, (0 : ℚ)))).map Prod.fst = l := by
  induction l with
  | nil => rfl
  | cons a t ih => simp [ih]

theorem zeros_sum (l : List Int) :
    ((l.map (fun n => (n, (0 : ℚ)))).map Prod.snd).sum = 0 := by
  induction l with
  | nil => rfl
  | cons a t ih =>
    simp only [List.map_cons, List.sum_cons, ih]
    simp

theorem eigenStage_some (base : DiGraph) (ct : CompType) (oracle : EigOracle)
    (s : List (Int × ℚ)) (h : eigenStage base ct oracle = some s) :
    ∃ a, (a ∈ attemptsFor base ct ∨ a = relaxedAttempt base) ∧ oracle a = some s := by
  unfold eigenStage at h
  cases hfs : firstSome oracle (attemptsFor base ct) with
  | some s2 =>
    rw [hfs] at h
    have hs := Option.some.inj h
    rcases firstSome_eq_some oracle _ s2 hfs with ⟨a, ha, hoa⟩
    exact ⟨a, Or.inl ha, hs ▸ hoa⟩
  | none =>
    rw [hfs] at h
    exact ⟨relaxedAttempt base, Or.inr rfl, h⟩

/-- C8: on a successful run, the eigenvector score map's key list is
exactly the full node-id list of the input graph; every entry for a node
outside the analyzed base component is exactly 0; all entries are
non-negative and their total equals the converged attempt's total, hence
positive — provided the convergence outcomes satisfy the NetworkX output
contract (keys = the attempted subgraph's nodes, non-negative scores
with positive total, as a unit-norm non-negative eigenvector has). -/
theorem claimC8_theorem (G : DiGraph) (oracle : EigOracle)
    (horacle : ∀ (a : EigAttempt) (s : List (Int × ℚ)), oracle a = some s →
      (s.map Prod.fst).Nodup
      ∧ (∀ x, x ∈ s.map Prod.fst ↔ x ∈ anaNodeIds a.graph)
      ∧ (∀ p ∈ s, 0 ≤ p.2)
      ∧ 0 < (s.map Prod.snd).sum)
    (r : CentralityResult)
    (hok : compute_centrality_measures G oracle = Except.ok r) :
    r.eigenvector.map Prod.fst = nodeIds G
    ∧ (∀ p ∈ r.eigenvector,
        (p.1 ∉ nodeIds (selectBase G).1 → p.2 = 0) ∧ 0 ≤ p.2)
    ∧ (1 < (selectBase G).1.nodes.length → 0 < (r.eigenvector.map Prod.snd).sum) := by
  by_cases hz : G.nodes.length = 0
  · simp [compute_centrality_measures, hz] at hok
  · simp only [compute_centrality_measures, if_neg hz] at hok
    cases hst : eigenStage (selectBase G).1 (selectBase G).2 oracle with
    | none =>
      rw [hst] at hok
      cases hok
    | some s =>
      rw [hst] at hok
      have hr := Except.ok.inj hok
      have heig : r.eigenvector = projectBack G s := by
        rw [← hr]
      rcases eigenStage_some _ _ _ _ hst with ⟨a, hmem, hoa⟩
      have hanodes : anaNodeIds a.graph = nodeIds (selectBase G).1 := by
        rcases hmem with hm | hm
        · exact (attempts_nodeIds (selectBase G).1 (selectBase G).2).1 a hm
        · rw [hm]
          exact (attempts_nodeIds (selectBase G).1 (selectBase G).2).2
      rcases horacle a s hoa with ⟨hnd, hkeys, hpos, hsum⟩
      have hkeys2 : ∀ x, x ∈ s.map Prod.fst ↔ x ∈ nodeIds (selectBase G).1 := by
        intro x
        rw [hkeys x, hanodes]
      have hsub : ∀ k ∈ s.map Prod.fst,
          k ∈ ((nodeIds G).map (fun n => (n, (0 : ℚ)))).map Prod.fst := by
        intro k hk
        rw [zeros_map_fst]
        exact selectBase_nodeIds_subset G k ((hkeys2 k).mp hk)
      refine ⟨?_, ?_, ?_⟩
      · rw [heig]
        unfold projectBack
        rw [dictUpdate_map_fst_of_subset s _ hsub, zeros_map_fst]
      · intro p hp
        rw [heig] at hp
        rcases mem_dictUpdate_elem s _ p hp with h0 | hs
        · simp only [List.mem_map] at h0
          rcases h0 with ⟨n, _, hn⟩
          constructor
          · intro _
            rw [← hn]
          · rw [← hn]
        · constructor
          · intro hout
            exfalso
            apply hout
            apply (hkeys2 p.1).mp
            exact List.mem_map_of_mem Prod.fst hs
          · exact hpos p hs
      · intro _
        rw [heig]
        unfold projectBack
        have hzero : ∀ k ∈ s.map Prod.fst,
            getVal ((nodeIds G).map (fun n => (n, (0 : ℚ)))) k = some 0 := by
          intro k hk
          exact getVal_map_self_zero (nodeIds G) k
            (selectBase_nodeIds_subset G k ((hkeys2 k).mp hk))
        rw [dictUpdate_sum s _ hnd hzero, zeros_sum]
        simpa using hsum

/-- The convergence-outcome model used to witness C8: on a graph with at
least one node, return score 1 for each distinct node; on a node-less
graph, fail (NetworkX raises there). -/
def unitOracle : EigOracle := fun a =>
  match (anaNodeIds a.graph).dedup with
  | [] => none
  | n :: t => some ((n :: t).map (fun m => (m, (1 : ℚ))))

theorem ones_sum (l : List Int) :
    ((l.map (fun m => (m, (1 : ℚ)))).map Prod.snd).sum = l.length := by
  induction l with
  | nil => rfl
  | cons a t ih =>
    simp only [List.map_cons, List.sum_cons, ih, List.length_cons]
    push_cast
    ring

theorem unitOracle_spec :
    ∀ (a : EigAttempt) (s : List (Int × ℚ)), unitOracle a = some s →
      (s.map Prod.fst).Nodup
      ∧ (∀ x, x ∈ s.map Prod.fst ↔ x ∈ anaNodeIds a.graph)
      ∧ (∀ p ∈ s, 0 ≤ p.2)
      ∧ 0 < (s.map Prod.snd).sum := by
  intro a s h
  unfold unitOracle at h
  cases hd : (anaNodeIds a.graph).dedup with
  | nil =>
    rw [hd] at h
    cases h
  | cons n t =>
    rw [hd] at h
    have hs := Option.some.inj h
    have hfst : s.map Prod.fst = n :: t := by
      rw [← hs]
      induction (n :: t) with
      | nil => rfl
      | cons b u ihu => simp [ihu]
    refine ⟨?_, ?_, ?_, ?_⟩
    · rw [hfst, ← hd]
      exact List.nodup_dedup _
    · intro x
      rw [hfst, ← hd]
      exact List.mem_dedup
    · intro p hp
      rw [← hs] at hp
      simp only [List.mem_map] at hp
      rcases hp with ⟨m, _, hm⟩
      rw [← hm]
      norm_num
    · rw [← hs, ones_sum]
      simp only [List.length_cons]
      positivity

/-- Witness for C8: the directed chain `1→2→3` with the unit oracle. -/
theorem claimC8_witness :
    ((⟨degree_centrality ⟨[(1, none), (2, none), (3, none)],
          [((1, 2), ⟨1, 1, 1, 1, Cell.num 2⟩), ((2, 3), ⟨2, 1, 1, 1, Cell.num 3⟩)]⟩,
       betweenness_centrality ⟨[(1, none), (2, none), (3, none)],
          [((1, 2), ⟨1, 1, 1, 1, Cell.num 2⟩), ((2, 3), ⟨2, 1, 1, 1, Cell.num 3⟩)]⟩,
       projectBack ⟨[(1, none), (2, none), (3, none)],
          [((1, 2), ⟨1, 1, 1, 1, Cell.num 2⟩), ((2, 3), ⟨2, 1, 1, 1, Cell.num 3⟩)]⟩
         [(1, 1), (2, 1), (3, 1)]⟩ : CentralityResult).eigenvector.map Prod.fst)
      = nodeIds ⟨[(1, none), (2, none), (3, none)],
          [((1, 2), ⟨1, 1, 1, 1, Cell.num 2⟩), ((2, 3), ⟨2, 1, 1, 1, Cell.num 3⟩)]⟩ :=
  (claimC8_theorem
    ⟨[(1, none), (2, none), (3, none)],
     [((1, 2), ⟨1, 1, 1, 1, Cell.num 2⟩), ((2, 3), ⟨2, 1, 1, 1, Cell.num 3⟩)]⟩
    unitOracle unitOracle_spec _ rfl).1

/-! ### Lemmas for `_calc_sizes` and the descending histogram -/

theorem bumpSize_eq_upsert (sizes : List (Int × Nat)) (cid : Int) :
    ∃ v, bumpSize sizes cid = upsert sizes cid v := by
  unfold bumpSize
  cases getVal sizes cid with
  | some c => exact ⟨c + 1, rfl⟩
  | none => exact ⟨1, rfl⟩

theorem foldl_bump_length :
    ∀ (l : List Int) (init : List (Int × Nat)),
      (l.foldl bumpSize init).length
        = init.length + newCount (init.map Prod.fst) l := by
  intro l
  induction l with
  | nil => intro init; simp [newCount]
  | cons c t ih =>
    intro init
    rcases bumpSize_eq_upsert init c with ⟨v, hv⟩
    by_cases hm : c ∈ init.map Prod.fst
    · have hlen : (bumpSize init c).length = init.length := by
        rw [hv]; exact upsert_length_of_mem _ _ _ hm
      have hkeys : (bumpSize init c).map Prod.fst = init.map Prod.fst := by
        rw [hv]; exact upsert_map_fst_of_mem _ _ _ hm
      simp only [List.foldl_cons, newCount, hm, if_true]
      rw [ih (bumpSize init c), hkeys, hlen]
    · have hlen : (bumpSize init c).length = init.length + 1 := by
        rw [hv]; exact upsert_length_of_not_mem _ _ _ hm
      have hkeys : (bumpSize init c).map Prod.fst = init.map Prod.fst ++ [c] := by
        rw [hv]; exact upsert_map_fst_of_not_mem _ _ _ hm
      have hcongr : newCount ((bumpSize init c).map Prod.fst) t
          = newCount (c :: init.map Prod.fst) t := by
        apply newCount_congr
        intro x
        simp [hkeys, List.mem_append, or_comm]
      simp only [List.foldl_cons, newCount, hm, if_false]
      rw [ih (bumpSize init c), hcongr, hlen]
      omega

theorem upsert_sum_nat (d : List (Int × Nat)) :
    ∀ (k : Int) (c : Nat), getVal d k = some c →
      ((upsert d k (c + 1)).map Prod.snd).sum = (d.map Prod.snd).sum + 1 := by
  induction d with
  | nil => intro k c h; cases h
  | cons p t ih =>
    intro k c h
    by_cases hk : p.1 = k
    · simp only [getVal, hk, if_true, Option.some.injEq] at h
      simp only [upsert, hk, if_true, List.map_cons, List.sum_cons, h]
      omega
    · simp only [getVal, hk, if_false] at h
      simp only [upsert, hk, if_false, List.map_cons, List.sum_cons, ih k c h]
      omega

theorem bump_sum (sizes : List (Int × Nat)) (cid : Int) :
    ((bumpSize sizes cid).map Prod.snd).sum = (sizes.map Prod.snd).sum + 1 := by
  unfold bumpSize
  cases hg : getVal sizes cid with
  | some c => exact upsert_sum_nat sizes cid c hg
  | none =>
    have hm : cid ∉ sizes.map Prod.fst := (getVal_eq_none_iff sizes cid).mp hg
    rw [upsert_eq_append_of_not_mem sizes cid 1 hm]
    simp

theorem foldl_bump_sum :
    ∀ (l : List Int) (init : List (Int × Nat)),
      ((l.foldl bumpSize init).map Prod.snd).sum
        = (init.map Prod.snd).sum + l.length := by
  intro l
  induction l with
  | nil => intro init; simp
  | cons c t ih =>
    intro init
    simp only [List.foldl_cons, List.length_cons]
    rw [ih (bumpSize init c), bump_sum]
    omega

theorem mem_insertDesc (a x : Nat) :
    ∀ l : List Nat, x ∈ insertDesc a l ↔ x = a ∨ x ∈ l := by
  intro l
  induction l with
  | nil => simp [insertDesc]
  | cons b t ih =>
    by_cases h : a ≤ b
    · simp only [insertDesc, h, if_true, List.mem_cons, ih]
      tauto
    · simp only [insertDesc, h, if_false, List.mem_cons]

theorem insertDesc_sorted (a : Nat) :
    ∀ l : List Nat, List.Sorted (fun x y => y ≤ x) l →
      List.Sorted (fun x y => y ≤ x) (insertDesc a l) := by
  intro l
  induction l with
  | nil => intro _; simp [insertDesc]
  | cons b t ih =>
    intro hs
    rw [List.sorted_cons] at hs
    by_cases h : a ≤ b
    · simp only [insertDesc, h, if_true]
      rw [List.sorted_cons]
      constructor
      · intro x hx
        rcases (mem_insertDesc a x t).mp hx with hxa | hxt
        · rw [hxa]; exact h
        · exact hs.1 x hxt
      · exact ih hs.2
    · have hba : b ≤ a := Nat.le_of_not_le h
      simp only [insertDesc, h, if_false]
      rw [List.sorted_cons]
      constructor
      · intro x hx
        rcases List.mem_cons.mp hx with hxb | hxt
        · rw [hxb]; exact hba
        · exact Nat.le_trans (hs.1 x hxt) hba
      · rw [List.sorted_cons]
        exact hs

theorem insertDesc_sum (a : Nat) :
    ∀ l : List Nat, (insertDesc a l).sum = a + l.sum := by
  intro l
  induction l with
  | nil => simp [insertDesc]
  | cons b t ih =>
    by_cases h : a ≤ b
    · simp only [insertDesc, h, if_true, List.sum_cons, ih]
      omega
    · simp only [insertDesc, h, if_false, List.sum_cons]

theorem sortDesc_sorted (l : List Nat) :
    List.Sorted (fun x y => y ≤ x) (sortDesc l) := by
  induction l with
  | nil => simp [sortDesc]
  | cons a t ih =>
    simp only [sortDesc, List.foldr_cons]
    exact insertDesc_sorted a _ ih

theorem sortDesc_sum (l : List Nat) : (sortDesc l).sum = l.sum := by
  induction l with
  | nil => rfl
  | cons a t ih =>
    simp only [sortDesc, List.foldr_cons, List.sum_cons] at ih ⊢
    rw [insertDesc_sum, ih]

theorem nodup_length_eq (l m : List Int) (hl : l.Nodup) (hm : m.Nodup)
    (h : ∀ x, x ∈ l ↔ x ∈ m) : l.length = m.length := by
  have hfin : l.toFinset = m.toFinset := by
    apply Finset.ext
    intro x
    simp [List.mem_toFinset, h x]
  calc l.length = l.toFinset.card := (List.toFinset_card_of_nodup hl).symm
    _ = m.toFinset.card := by rw [hfin]
    _ = m.length := List.toFinset_card_of_nodup hm

/-- C7: for every non-empty graph, `detect_communities` succeeds with a
partition keyed by exactly the graph's nodes (each once), a community
count equal to the number of distinct community ids in the partition, and
a size histogram sorted descending whose entries sum to the node count —
given that the Louvain call returns one community id per node of its
input graph (its documented contract). -/
theorem claimC7_theorem (G : DiGraph) (louvain : LouvainOracle)
    (hne : G.nodes.length ≠ 0)
    (hnd : (nodeIds G).Nodup)
    (hlnd : ((louvain (toUndirected G)).map Prod.fst).Nodup)
    (hlmem : ∀ x, x ∈ (louvain (toUndirected G)).map Prod.fst ↔ x ∈ nodeIds G) :
    ∃ p c h, detect_communities G louvain = Except.ok (p, c, h)
      ∧ (p.map Prod.fst).Nodup
      ∧ (∀ x, x ∈ p.map Prod.fst ↔ x ∈ nodeIds G)
      ∧ c = distinctCount (p.map Prod.snd)
      ∧ List.Sorted (fun x y => y ≤ x) h
      ∧ h.sum = G.nodes.length := by
  refine ⟨louvain (toUndirected G),
    (calc_sizes (louvain (toUndirected G))).1.length,
    (calc_sizes (louvain (toUndirected G))).2, ?_, hlnd, hlmem, ?_, ?_, ?_⟩
  · simp [detect_communities, hne]
  · simp only [calc_sizes]
    rw [foldl_bump_length]
    simp [distinctCount]
  · simp only [calc_sizes]
    exact sortDesc_sorted _
  · simp only [calc_sizes]
    rw [sortDesc_sum, foldl_bump_sum]
    have hplen : (louvain (toUndirected G)).length = G.nodes.length := by
      have h1 : ((louvain (toUndirected G)).map Prod.fst).length
          = (nodeIds G).length := nodup_length_eq _ _ hlnd hnd hlmem
      simpa [nodeIds] using h1
    simp [hplen]

/-- Witness for C7: a two-node, one-edge graph with a parity Louvain. -/
theorem claimC7_witness :
    ∃ p c h, detect_communities
        ⟨[(1, none), (2, none)], [((1, 2), ⟨1, 1, 1, 1, Cell.num 1⟩)]⟩
        (fun U => (uNodeIds U).map (fun n => (n, n % 2)))
        = Except.ok (p, c, h)
      ∧ (p.map Prod.fst).Nodup
      ∧ (∀ x, x ∈ p.map Prod.fst
          ↔ x ∈ nodeIds ⟨[(1, none), (2, none)], [((1, 2), ⟨1, 1, 1, 1, Cell.num 1⟩)]⟩)
      ∧ c = distinctCount (p.map Prod.snd)
      ∧ List.Sorted (fun x y => y ≤ x) h
      ∧ h.sum = (⟨[(1, none), (2, none)],
          [((1, 2), ⟨1, 1, 1, 1, Cell.num 1⟩)]⟩ : DiGraph).nodes.length :=
  claimC7_theorem ⟨[(1, none), (2, none)], [((1, 2), ⟨1, 1, 1, 1, Cell.num 1⟩)]⟩
    (fun U => (uNodeIds U).map (fun n => (n, n % 2)))
    (by decide) (by decide) (by decide) (fun x => Iff.rfl)

/-! ### Degree-centrality bounds -/

/-- Out-degree bound: with distinct edge keys whose endpoints are nodes
and no self-loops, a node has at most `n − 1` out-edges. -/
theorem outdeg_le (G : DiGraph) (hek : (edgeKeys G).Nodup)
    (hend : ∀ k ∈ edgeKeys G, k.1 ∈ nodeIds G ∧ k.2 ∈ nodeIds G ∧ k.1 ≠ k.2)
    (hnd : (nodeIds G).Nodup) (n : Int) (hn : n ∈ nodeIds G) :
    ((edgeKeys G).filter (fun k => decide (k.1 = n))).length
      ≤ G.nodes.length - 1 := by
  set S := (edgeKeys G).filter (fun k => decide (k.1 = n)) with hS
  have hSnd : S.Nodup := hek.filter _
  have hmem : ∀ k ∈ S, k.1 = n ∧ k.2 ∈ nodeIds G ∧ k.2 ≠ n := by
    intro k hk
    have h1 := List.of_mem_filter hk
    have h2 := List.mem_of_mem_filter hk
    have hfst : k.1 = n := of_decide_eq_true h1
    rcases hend k h2 with ⟨_, hv, hne⟩
    exact ⟨hfst, hv, fun he => hne (by rw [hfst, he])⟩
  have hTnd : (S.map Prod.snd).Nodup := by
    apply List.Nodup.map_on ?_ hSnd
    intro x hx y hy hxy
    have hx1 := (hmem x hx).1
    have hy1 := (hmem y hy).1
    apply Prod.ext
    · rw [hx1, hy1]
    · exact hxy
  have hsub : (S.map Prod.snd).toFinset ⊆ ((nodeIds G).toFinset).erase n := by
    intro y hy
    rw [List.mem_toFinset, List.mem_map] at hy
    rcases hy with ⟨k, hk, hky⟩
    rcases hmem k hk with ⟨_, hv, hne⟩
    rw [Finset.mem_erase]
    exact ⟨hky ▸ hne, List.mem_toFinset.mpr (hky ▸ hv)⟩
  have hcard : (S.map Prod.snd).length ≤ (nodeIds G).toFinset.card - 1 := by
    calc (S.map Prod.snd).length = (S.map Prod.snd).toFinset.card :=
          (List.toFinset_card_of_nodup hTnd).symm
      _ ≤ ((nodeIds G).toFinset.erase n).card := Finset.card_le_card hsub
      _ = (nodeIds G).toFinset.card - 1 :=
          Finset.card_erase_of_mem (List.mem_toFinset.mpr hn)
  have hfin : (nodeIds G).toFinset.card = G.nodes.length := by
    rw [List.toFinset_card_of_nodup hnd]
    simp [nodeIds]
  rw [hfin] at hcard
  simpa using hcard

/-- In-degree bound, symmetric to `outdeg_le`. -/
theorem indeg_le (G : DiGraph) (hek : (edgeKeys G).Nodup)
    (hend : ∀ k ∈ edgeKeys G, k.1 ∈ nodeIds G ∧ k.2 ∈ nodeIds G ∧ k.1 ≠ k.2)
    (hnd : (nodeIds G).Nodup) (n : Int) (hn : n ∈ nodeIds G) :
    ((edgeKeys G).filter (fun k => decide (k.2 = n))).length
      ≤ G.nodes.length - 1 := by
  set S := (edgeKeys G).filter (fun k => decide (k.2 = n)) with hS
  have hSnd : S.Nodup := hek.filter _
  have hmem : ∀ k ∈ S, k.2 = n ∧ k.1 ∈ nodeIds G ∧ k.1 ≠ n := by
    intro k hk
    have h1 := List.of_mem_filter hk
    have h2 := List.mem_of_mem_filter hk
    have hsnd : k.2 = n := of_decide_eq_true h1
    rcases hend k h2 with ⟨hu, _, hne⟩
    exact ⟨hsnd, hu, fun he => hne (by rw [hsnd, he])⟩
  have hTnd : (S.map Prod.fst).Nodup := by
    apply List.Nodup.map_on ?_ hSnd
    intro x hx y hy hxy
    have hx1 := (hmem x hx).1
    have hy1 := (hmem y hy).1
    apply Prod.ext
    · exact hxy
    · rw [hx1, hy1]
  have hsub : (S.map Prod.fst).toFinset ⊆ ((nodeIds G).toFinset).erase n := by
    intro y hy
    rw [List.mem_toFinset, List.mem_map] at hy
    rcases hy with ⟨k, hk, hky⟩
    rcases hmem k hk with ⟨_, hu, hne⟩
    rw [Finset.mem_erase]
    exact ⟨hky ▸ hne, List.mem_toFinset.mpr (hky ▸ hu)⟩
  have hcard : (S.map Prod.fst).length ≤ (nodeIds G).toFinset.card - 1 := by
    calc (S.map Prod.fst).length = (S.map Prod.fst).toFinset.card :=
          (List.toFinset_card_of_nodup hTnd).symm
      _ ≤ ((nodeIds G).toFinset.erase n).card := Finset.card_le_card hsub
      _ = (nodeIds G).toFinset.card - 1 :=
          Finset.card_erase_of_mem (List.mem_toFinset.mpr hn)
  have hfin : (nodeIds G).toFinset.card = G.nodes.length := by
    rw [List.toFinset_card_of_nodup hnd]
    simp [nodeIds]
  rw [hfin] at hcard
  simpa using hcard

theorem totalDegree_le (G : DiGraph) (hek : (edgeKeys G).Nodup)
    (hend : ∀ k ∈ edgeKeys G, k.1 ∈ nodeIds G ∧ k.2 ∈ nodeIds G ∧ k.1 ≠ k.2)
    (hnd : (nodeIds G).Nodup) (n : Int) (hn : n ∈ nodeIds G) :
    totalDegree G n ≤ 2 * (G.nodes.length - 1) := by
  have h1 := outdeg_le G hek hend hnd n hn
  have h2 := indeg_le G hek hend hnd n hn
  unfold totalDegree
  omega


/-- Integer node ids `0, …, n−1`. -/
def intRange (n : Nat) : List Int := (List.range n).map (fun k => Int.ofNat k)

/-- The complete directed graph on `n` nodes: every ordered pair of
distinct nodes carries an edge. -/
def completeDigraph (n : Nat) : DiGraph :=
  ⟨(intRange n).map (fun i => (i, none)),
   (intRange n).flatMap (fun i =>
     ((intRange n).filter (fun j => !decide (j = i))).map
       (fun j => ((i, j), ⟨0, 1, 1, 1, Cell.num 1⟩)))⟩

theorem intRange_nodup (n : Nat) : (intRange n).Nodup := by
  apply List.Nodup.map
  · intro a b h
    exact Int.ofNat.inj h
  · exact List.nodup_range n

theorem intRange_length (n : Nat) : (intRange n).length = n := by
  simp [intRange]

theorem length_filter_flat {α β : Type} (B : α → List β) (p : β → Bool) :
    ∀ I : List α,
      ((I.flatMap B).filter p).length
        = (I.map (fun i => ((B i).filter p).length)).sum := by
  intro I
  induction I with
  | nil => rfl
  | cons i t ih =>
    simp only [List.flatMap_cons, List.filter_append, List.length_append,
      List.map_cons, List.sum_cons, ih]

theorem keyblock_fst (i v : Int) (d : EdgeData) :
    ∀ L : List Int,
      ((L.map (fun j => ((i, j), d))).filter (fun k => decide (k.1.1 = v))).length
        = if i = v then L.length else 0 := by
  intro L
  induction L with
  | nil => simp
  | cons a t ih =>
    by_cases h : i = v
    · subst h
      simp [List.filter_cons, ih]
    · simp [List.filter_cons, h, ih]

theorem keyblock_snd (i v : Int) (d : EdgeData) :
    ∀ L : List Int,
      ((L.map (fun j => ((i, j), d))).filter (fun k => decide (k.1.2 = v))).length
        = (L.filter (fun j => decide (j = v))).length := by
  intro L
  induction L with
  | nil => rfl
  | cons a t ih =>
    by_cases h : a = v
    · subst h
      simp [List.filter_cons, ih]
    · simp [List.filter_cons, h, ih]

theorem filter_eq_len_one :
    ∀ L : List Int, L.Nodup → ∀ v ∈ L,
      (L.filter (fun j => decide (j = v))).length = 1 := by
  intro L
  induction L with
  | nil => intro _ v hv; cases hv
  | cons a t ih =>
    intro hnd v hv
    rw [List.nodup_cons] at hnd
    rcases List.mem_cons.mp hv with hva | hvt
    · subst hva
      have hz : (t.filter (fun j => decide (j = v))).length = 0 := by
        rw [List.length_eq_zero, List.filter_eq_nil_iff]
        intro b hb
        simp only [decide_eq_true_eq]
        intro hbv
        exact hnd.1 (hbv ▸ hb)
      simp [List.filter_cons, hz]
    · have hav : ¬(a = v) := fun he => hnd.1 (he ▸ hvt)
      simp [List.filter_cons, hav, ih hnd.2 v hvt]

theorem filter_eq_len_zero :
    ∀ (L : List Int) (v : Int), v ∉ L →
      (L.filter (fun j => decide (j = v))).length = 0 := by
  intro L v hv
  rw [List.length_eq_zero, List.filter_eq_nil_iff]
  intro b hb
  simp only [decide_eq_true_eq]
  intro hbv
  exact hv (hbv ▸ hb)

theorem ones_list_sum :
    ∀ l : List Nat, (∀ x ∈ l, x = 1) → l.sum = l.length := by
  intro l
  induction l with
  | nil => intro _; rfl
  | cons a t ih =>
    intro h
    simp only [List.sum_cons, List.length_cons, h a (by simp),
      ih (fun x hx => h x (List.mem_cons_of_mem a hx))]
    omega

theorem sum_ite_single (F : Int → Nat) (v : Int) :
    ∀ I : List Int, I.Nodup → v ∈ I →
      (I.map (fun i => if i = v then F i else 0)).sum = F v := by
  intro I
  induction I with
  | nil => intro _ hv; cases hv
  | cons a t ih =>
    intro hnd hv
    rw [List.nodup_cons] at hnd
    rcases List.mem_cons.mp hv with hva | hvt
    · subst hva
      have hz : (t.map (fun i => if i = v then F i else 0)).sum = 0 := by
        apply List.sum_eq_zero
        intro x hx
        rcases List.mem_map.mp hx with ⟨i, hi, hix⟩
        have hiv : ¬(i = v) := fun he => hnd.1 (he ▸ hi)
        rw [← hix]
        simp [hiv]
      simp [hz]
    · have hav : ¬(a = v) := fun he => hnd.1 (he ▸ hvt)
      simp only [List.map_cons, List.sum_cons, hav, if_false]
      rw [ih hnd.2 hvt]
      omega

theorem sum_ite_ne (v : Int) :
    ∀ I : List Int, I.Nodup → v ∈ I →
      (I.map (fun i => if i = v then 0 else 1)).sum = I.length - 1 := by
  intro I
  induction I with
  | nil => intro _ hv; cases hv
  | cons a t ih =>
    intro hnd hv
    rw [List.nodup_cons] at hnd
    rcases List.mem_cons.mp hv with hva | hvt
    · subst hva
      have hall : (t.map (fun i => if i = v then 0 else 1)).sum = t.length := by
        rw [ones_list_sum]
        · simp
        · intro x hx
          rcases List.mem_map.mp hx with ⟨i, hi, hix⟩
          have hiv : ¬(i = v) := fun he => hnd.1 (he ▸ hi)
          rw [← hix]
          simp [hiv]
      simp [hall]
    · have hav : ¬(a = v) := fun he => hnd.1 (he ▸ hvt)
      simp only [List.map_cons, List.sum_cons, hav, if_false, List.length_cons]
      rw [ih hnd.2 hvt]
      have : 1 ≤ t.length := List.length_pos.mpr (List.ne_nil_of_mem hvt)
      omega

theorem length_filter_map {α β : Type} (f : α → β) (p : β → Bool) :
    ∀ l : List α,
      ((l.map f).filter p).length = (l.filter (fun a => p (f a))).length := by
  intro l
  induction l with
  | nil => rfl
  | cons a t ih =>
    by_cases h : p (f a) = true
    · simp [List.filter_cons, h, ih]
    · simp [List.filter_cons, h, ih]

theorem length_filter_split {α : Type} (p : α → Bool) :
    ∀ l : List α,
      (l.filter p).length + (l.filter (fun a => !(p a))).length = l.length := by
  intro l
  induction l with
  | nil => rfl
  | cons a t ih =>
    by_cases h : p a = true
    · simp [List.filter_cons, h]
      omega
    · simp [List.filter_cons, h]
      omega

theorem nodeIds_completeDigraph (n : Nat) :
    nodeIds (completeDigraph n) = intRange n := by
  simp only [nodeIds, completeDigraph, List.map_map]
  have : (Prod.fst ∘ fun i : Int => (i, (none : Option (ℚ × ℚ)))) = id := by
    funext i
    rfl
  rw [this, List.map_id]

theorem completeDigraph_notEq_len (n : Nat) (v : Int) (hv : v ∈ intRange n) :
    ((intRange n).filter (fun j => !decide (j = v))).length = n - 1 := by
  have hsplit := length_filter_split (fun j => decide (j = v)) (intRange n)
  have hone := filter_eq_len_one (intRange n) (intRange_nodup n) v hv
  have hlen := intRange_length n
  omega

theorem completeDigraph_outdeg (n : Nat) (v : Int) (hv : v ∈ intRange n) :
    ((edgeKeys (completeDigraph n)).filter (fun k => decide (k.1 = v))).length
      = n - 1 := by
  have hek : ((edgeKeys (completeDigraph n)).filter (fun k => decide (k.1 = v))).length
      = (((completeDigraph n).edges).filter (fun e => decide (e.1.1 = v))).length := by
    unfold edgeKeys
    exact length_filter_map Prod.fst _ _
  rw [hek]
  show (((intRange n).flatMap (fun i =>
      ((intRange n).filter (fun j => !decide (j = i))).map
        (fun j => ((i, j), (⟨0, 1, 1, 1, Cell.num 1⟩ : EdgeData))))).filter
      (fun e => decide (e.1.1 = v))).length = n - 1
  rw [length_filter_flat]
  have hmap : ((intRange n).map (fun i =>
      ((((intRange n).filter (fun j => !decide (j = i))).map
        (fun j => ((i, j), (⟨0, 1, 1, 1, Cell.num 1⟩ : EdgeData)))).filter
        (fun e => decide (e.1.1 = v))).length))
      = (intRange n).map (fun i => if i = v
          then ((intRange n).filter (fun j => !decide (j = i))).length else 0) := by
    apply List.map_congr_left
    intro i _
    exact keyblock_fst i v _ _
  rw [hmap]
  have hsum := sum_ite_single
    (fun i => ((intRange n).filter (fun j => !decide (j = i))).length) v
    (intRange n) (intRange_nodup n) hv
  rw [hsum]
  exact completeDigraph_notEq_len n v hv

theorem completeDigraph_indeg (n : Nat) (v : Int) (hv : v ∈ intRange n) :
    ((edgeKeys (completeDigraph n)).filter (fun k => decide (k.2 = v))).length
      = n - 1 := by
  have hek : ((edgeKeys (completeDigraph n)).filter (fun k => decide (k.2 = v))).length
      = (((completeDigraph n).edges).filter (fun e => decide (e.1.2 = v))).length := by
    unfold edgeKeys
    exact length_filter_map Prod.fst _ _
  rw [hek]
  show (((intRange n).flatMap (fun i =>
      ((intRange n).filter (fun j => !decide (j = i))).map
        (fun j => ((i, j), (⟨0, 1, 1, 1, Cell.num 1⟩ : EdgeData))))).filter
      (fun e => decide (e.1.2 = v))).length = n - 1
  rw [length_filter_flat]
  have hmap : ((intRange n).map (fun i =>
      ((((intRange n).filter (fun j => !decide (j = i))).map
        (fun j => ((i, j), (⟨0, 1, 1, 1, Cell.num 1⟩ : EdgeData)))).filter
        (fun e => decide (e.1.2 = v))).length))
      = (intRange n).map (fun i => if i = v then 0 else 1) := by
    apply List.map_congr_left
    intro i hi
    rw [keyblock_snd i v _ _]
    by_cases hiv : i = v
    · subst hiv
      rw [if_pos rfl]
      apply filter_eq_len_zero
      intro hmem
      have := List.of_mem_filter hmem
      simp at this
    · rw [if_neg hiv]
      apply filter_eq_len_one
      · exact (intRange_nodup n).filter _
      · rw [List.mem_filter]
        refine ⟨hv, ?_⟩
        simp
        exact fun he => hiv he.symm
  rw [hmap]
  have hsum := sum_ite_ne v (intRange n) (intRange_nodup n) hv
  rw [hsum, intRange_length]

theorem completeDigraph_totalDegree (n : Nat) (v : Int) (hv : v ∈ intRange n) :
    totalDegree (completeDigraph n) v = 2 * (n - 1) := by
  unfold totalDegree
  rw [completeDigraph_outdeg n v hv, completeDigraph_indeg n v hv]
  omega

/-- C5 counterexample.  Concrete inputs: the two-node graph with edges in
both directions gets degree centrality 2 for each node (outside the
claimed [0, 1], and it is the complete directed graph on 2 nodes, whose
claimed value was 1.0); the one-node graph gets score 1, not the claimed
0 (NetworkX returns 1 for graphs with at most one node). -/
theorem claimC5_counterexample :
    degree_centrality ⟨[(1, none), (2, none)],
        [((1, 2), ⟨1, 1, 1, 1, Cell.num 1⟩), ((2, 1), ⟨2, 1, 1, 1, Cell.num 1⟩)]⟩
      = [(1, 2), (2, 2)]
    ∧ degree_centrality ⟨[(5, none)], []⟩ = [(5, 1)] := by
  constructor
  · norm_num [degree_centrality, totalDegree, edgeKeys, nodeIds]
  · norm_num [degree_centrality, nodeIds]

/-- C5 (amended): for a graph with n ≥ 2 nodes, distinct node ids,
distinct edge keys with endpoints in the node set, and no self-loops,
every degree-centrality value lies in [0, 2] (in+out degree over n−1);
on the complete directed graph on n ≥ 2 nodes every value is exactly 2;
for a single-node graph the value is 1; and the degree map
`compute_centrality_measures` returns is exactly `degree_centrality` of
the full input graph. -/
theorem claimC5_theorem :
    (∀ G : DiGraph, 2 ≤ G.nodes.length → (nodeIds G).Nodup → (edgeKeys G).Nodup →
      (∀ k ∈ edgeKeys G, k.1 ∈ nodeIds G ∧ k.2 ∈ nodeIds G ∧ k.1 ≠ k.2) →
      ∀ p ∈ degree_centrality G, 0 ≤ p.2 ∧ p.2 ≤ 2)
    ∧ (∀ n : Nat, 2 ≤ n → ∀ p ∈ degree_centrality (completeDigraph n), p.2 = 2)
    ∧ (∀ G : DiGraph, G.nodes.length = 1 → ∀ p ∈ degree_centrality G, p.2 = 1)
    ∧ (∀ (G : DiGraph) (oracle : EigOracle) (r : CentralityResult),
        compute_centrality_measures G oracle = Except.ok r →
        r.degree = degree_centrality G) := by
  refine ⟨?_, ?_, ?_, ?_⟩
  · intro G h2 hnd hek hend p hp
    have hgt : ¬ G.nodes.length ≤ 1 := by omega
    simp only [degree_centrality, if_neg hgt, List.mem_map] at hp
    rcases hp with ⟨m, hm, rfl⟩
    have hpos : (0 : ℚ) < (G.nodes.length : ℚ) - 1 := by
      have hc : (2 : ℚ) ≤ (G.nodes.length : ℚ) := by exact_mod_cast h2
      linarith
    constructor
    · exact div_nonneg (Nat.cast_nonneg _) hpos.le
    · show (totalDegree G m : ℚ) / ((G.nodes.length : ℚ) - 1) ≤ 2
      rw [div_le_iff₀ hpos]
      have hb := totalDegree_le G hek hend hnd m hm
      have hbq : (totalDegree G m : ℚ) ≤ ((2 * (G.nodes.length - 1) : Nat) : ℚ) := by
        exact_mod_cast hb
      have hc : ((2 * (G.nodes.length - 1) : Nat) : ℚ)
          = 2 * ((G.nodes.length : ℚ) - 1) := by
        rw [Nat.cast_mul, Nat.cast_sub (by omega : 1 ≤ G.nodes.length)]
        norm_num
      rw [hc] at hbq
      linarith
  · intro n hn p hp
    have hlen : (completeDigraph n).nodes.length = n := by
      simp [completeDigraph, intRange_length]
    have hgt : ¬ (completeDigraph n).nodes.length ≤ 1 := by omega
    simp only [degree_centrality, if_neg hgt, List.mem_map] at hp
    rcases hp with ⟨m, hm, rfl⟩
    rw [nodeIds_completeDigraph] at hm
    show (totalDegree (completeDigraph n) m : ℚ)
        / (((completeDigraph n).nodes.length : ℚ) - 1) = 2
    rw [completeDigraph_totalDegree n m hm, hlen]
    have h1 : ((2 * (n - 1) : Nat) : ℚ) = 2 * ((n : ℚ) - 1) := by
      rw [Nat.cast_mul, Nat.cast_sub (by omega : 1 ≤ n)]
      norm_num
    have hne : ((n : ℚ) - 1) ≠ 0 := by
      have hc : (2 : ℚ) ≤ (n : ℚ) := by exact_mod_cast hn
      have : (0 : ℚ) < (n : ℚ) - 1 := by linarith
      exact ne_of_gt this
    rw [h1, mul_div_assoc, div_self hne, mul_one]
  · intro G h1 p hp
    simp only [degree_centrality, if_pos (by omega : G.nodes.length ≤ 1),
      List.mem_map] at hp
    rcases hp with ⟨m, hm, rfl⟩
    rfl
  · intro G oracle r h
    by_cases hz : G.nodes.length = 0
    · simp [compute_centrality_measures, hz] at h
    · simp only [compute_centrality_measures, if_neg hz] at h
      cases hst : eigenStage (selectBase G).1 (selectBase G).2 oracle with
      | some s =>
        rw [hst] at h
        have := Except.ok.inj h
        rw [← this]
      | none =>
        rw [hst] at h
        cases h

/-- Witness for C5: the single-node clause at a concrete graph. -/
theorem claimC5_witness :
    (((5 : Int), (1 : ℚ))).2 = 1 :=
  claimC5_theorem.2.2.1 ⟨[(5, none)], []⟩ rfl ((5 : Int), (1 : ℚ)) (by decide)
